import Mathlib

/-!
Shallow embedding of `src/custom_tree.py` (class `CustomTreeWidget` and the
header helper `CustomHeader`) from the gecos-lab/custom_tree_widget repository.

The Qt item tree is modelled as a rose tree of `Item` nodes.  Each
`QTreeWidgetItem` carries the data the verified methods touch: the texts of
columns 0 and 1, the UID stored under `Qt.UserRole` in column 0, the tri-state
check state of column 0, the two item flags the code sets, and the selection
flag.  The invisible root item is modelled as a bare `List Item` (a forest),
since the Python code never gives the invisible root a state of its own.

GUI-only aspects (pixel geometry, the per-row `QComboBox` widgets, column
resizing, context menus) are outside the modelled fragment: no verified claim
mentions them, and the methods below never read them.
-/

set_option maxHeartbeats 1000000

namespace CustomTreeWidget

/-- `Qt.CheckState` restricted to the three values the program uses. -/
inductive CheckState where
  | Unchecked
  | PartiallyChecked
  | Checked
deriving DecidableEq, Repr

/-- The per-item data of a `QTreeWidgetItem` that the verified code reads or
writes: `text(0)`, `text(1)`, `data(0, Qt.UserRole)`, `checkState(0)`, the
`ItemIsUserCheckable` and `ItemIsAutoTristate` flags, and `isSelected()`. -/
structure ItemData where
  text0 : String
  text1 : String
  uid : Option String
  checkState : CheckState
  userCheckable : Bool
  autoTristate : Bool
  selected : Bool
deriving DecidableEq, Repr

/-- A `QTreeWidgetItem` together with its children, as a rose tree. -/
inductive Item where
  | node (data : ItemData) (children : List Item)

mutual

/-- Decidable equality of items (hand-rolled: the nested occurrence of
`List Item` defeats automatic derivation). -/
def decEqItem : (a b : Item) → Decidable (a = b)
  | .node d cs, .node d' cs' =>
    match decEq d d' with
    | isFalse h => isFalse (fun he => by cases he; exact h rfl)
    | isTrue hd =>
      match decEqItemList cs cs' with
      | isFalse h => isFalse (fun he => by cases he; exact h rfl)
      | isTrue hc => isTrue (by rw [hd, hc])

/-- Decidable equality of lists of items. -/
def decEqItemList : (a b : List Item) → Decidable (a = b)
  | [], [] => isTrue rfl
  | [], _ :: _ => isFalse (fun h => by cases h)
  | _ :: _, [] => isFalse (fun h => by cases h)
  | a :: as, b :: bs =>
    match decEqItem a b with
    | isFalse h => isFalse (fun he => by cases he; exact h rfl)
    | isTrue h1 =>
      match decEqItemList as bs with
      | isFalse h => isFalse (fun he => by cases he; exact h rfl)
      | isTrue h2 => isTrue (by rw [h1, h2])

end

instance : DecidableEq Item := decEqItem

/-- The item's own data record. -/
def Item.dataOf : Item → ItemData
  | .node d _ => d

/-- The item's direct children, in order. -/
def Item.childrenOf : Item → List Item
  | .node _ cs => cs

/-- `item.checkState(0)`. -/
def stateOf (it : Item) : CheckState := it.dataOf.checkState

/-- `CustomTreeWidget.get_item_uid`: returns `item.data(0, Qt.UserRole)`. -/
def get_item_uid (it : Item) : Option String := it.dataOf.uid

/-- `item.text(0)`. -/
def itemText0 (it : Item) : String := it.dataOf.text0

/-- `item.isSelected()`. -/
def selectedOf (it : Item) : Bool := it.dataOf.selected

mutual

/-- All strict descendants of an item, in the pre-order that
`findItems("", Qt.MatchContains | Qt.MatchRecursive)` enumerates items. -/
def descItem : Item → List Item
  | .node _ cs => descList cs

/-- All items of a forest together with their strict descendants, pre-order. -/
def descList : List Item → List Item
  | [] => []
  | c :: rest => c :: (descItem c ++ descList rest)

end

mutual

/-- Helper for `update_child_check_states`: the effect of
`child.setCheckState(0, s)` followed by the recursive call
`update_child_check_states(child, s)` is to set the check state of the child
and every node below it to `s`. -/
def setStateAll : Item → CheckState → Item
  | .node d cs, s => .node { d with checkState := s } (setStateAllList cs s)

/-- `setStateAll` mapped over a list of children. -/
def setStateAllList : List Item → CheckState → List Item
  | [], _ => []
  | c :: rest, s => setStateAll c s :: setStateAllList rest s

end

/-- `CustomTreeWidget.update_child_check_states(item, check_state)`:
for each child of `item`, set its check state and recurse into it; the item's
own data is left untouched. -/
def update_child_check_states : Item → CheckState → Item
  | .node d cs, s => .node d (setStateAllList cs s)

/-- The tri-state aggregation of `update_parent_check_states`: `Checked` when
`all(state == Qt.Checked ...)`, else `Unchecked` when
`all(state == Qt.Unchecked ...)`, else `PartiallyChecked`. -/
def aggregate (children : List Item) : CheckState :=
  if children.all (fun c => stateOf c == .Checked) then .Checked
  else if children.all (fun c => stateOf c == .Unchecked) then .Unchecked
  else .PartiallyChecked

/-- `CustomTreeWidget.update_parent_check_states(item)` on a single tree `t`,
where the item sits at position `p` (a list of child indices below `t`).
Python walks up from the item, setting each ancestor's check state from its
children's states, innermost ancestor first; structurally that is: descend
along `p`, update the deeper ancestors first, then recompute this node's
state from the updated children.  With `p = []` the item is `t` itself and
its parent lies outside the tree, so nothing changes. -/
def update_parent_check_states : Item → List Nat → Item
  | t, [] => t
  | .node d cs, j :: q =>
    let cs' := cs.modify (fun c => update_parent_check_states c q) j
    .node { d with checkState := aggregate cs' } cs'

/-- `update_parent_check_states` at forest level: the item sits at position
`i :: q` (top-level item `i`, then path `q` inside it).  A top-level item
(`q = []`) has no parent — `item.parent()` is `None` — so nothing changes. -/
def update_parent_forest (f : List Item) : List Nat → List Item
  | [] => f
  | i :: q => f.modify (fun t => update_parent_check_states t q) i

/-- Item lookup by path inside a single tree. -/
def getAtPathT : Item → List Nat → Option Item
  | t, [] => some t
  | .node _ cs, j :: q =>
    match cs[j]? with
    | some c => getAtPathT c q
    | none => none

/-- Item lookup by path in the forest below the invisible root.  The empty
path would denote the invisible root itself, which is not an item. -/
def getAtPathF (f : List Item) : List Nat → Option Item
  | [] => none
  | i :: q =>
    match f[i]? with
    | some t => getAtPathT t q
    | none => none

/-- Python truthiness of a stored UID: the loops guarded by `if uid:` skip
both a missing UID (`None`) and an empty UID string. -/
def truthyUid (it : Item) : Option String :=
  match get_item_uid it with
  | some u => if u == "" then none else some u
  | none => none

/-- A header button: `DraggableButton` is checkable; `text()` and
`isChecked()` are all `get_order` reads. -/
structure HButton where
  text : String
  checked : Bool
deriving DecidableEq, Repr

/-- `CustomHeader.get_order`: the texts of the checked buttons, in the
current left-to-right order of `self.buttons`. -/
def get_order (buttons : List HButton) : List String :=
  (buttons.filter (fun b => b.checked)).map (fun b => b.text)

/-- One dataframe row, as an association list from column name to the cell's
string value (the columns `populate_tree` reads all hold strings). -/
abbrev Row := List (String × String)

/-- `row[k]` (total: defaults to `""`; the verified code only reads columns
that are present). -/
def rowGet (r : Row) (k : String) : String :=
  match r.find? (fun p => p.1 == k) with
  | some p => p.2
  | none => ""

/-- `k in row`. -/
def rowHas (r : Row) (k : String) : Bool :=
  r.any (fun p => p.1 == k)

/-- The UID `populate_tree` stores on a leaf:
`if self.uid_label and self.uid_label in row: uid = str(row[self.uid_label])`
(`str` is the identity here since the cell is modelled as a string). -/
def uidOfRow (row : Row) (uid_label : Option String) : Option String :=
  match uid_label with
  | some ul => if ul != "" && rowHas row ul then some (rowGet row ul) else none
  | none => none

/-- The fresh group item `get_or_create_item` builds when no child matches:
`QTreeWidgetItem([text])` with flags
`ItemIsUserCheckable | ItemIsAutoTristate` and check state `Unchecked`. -/
def newGroupItemData (text : String) : ItemData :=
  { text0 := text, text1 := "", uid := none, checkState := .Unchecked,
    userCheckable := true, autoTristate := true, selected := false }

/-- The leaf `name_item` `populate_tree` builds for a row:
`QTreeWidgetItem(["", row[self.name_label]])`, the UID stored under
`Qt.UserRole` when `uid_label` is set and present, flag
`ItemIsUserCheckable`, check state `Unchecked`. -/
def mkLeafItemData (row : Row) (name_label : String) (uid_label : Option String) :
    ItemData :=
  { text0 := "", text1 := rowGet row name_label, uid := uidOfRow row uid_label,
    checkState := .Unchecked, userCheckable := true, autoTristate := false,
    selected := false }

/-- `CustomTreeWidget.get_or_create_item(parent, text)`, acting on the
parent's list of children: return the first child whose `text(0)` equals
`text`; otherwise append a fresh group item and return it.  The returned
pair is (children of the parent after the call, returned item). -/
def get_or_create_item (parentChildren : List Item) (text : String) :
    List Item × Item :=
  match parentChildren.find? (fun c => itemText0 c == text) with
  | some c => (parentChildren, c)
  | none =>
    let it := Item.node (newGroupItemData text) []
    (parentChildren ++ [it], it)

/-- In-place update of the first list element satisfying `p` (the aliasing
`parent = self.get_or_create_item(parent, ...)` mutates exactly that child). -/
def modifyFirst (p : Item → Bool) (g : Item → Item) : List Item → List Item
  | [] => []
  | c :: rest => if p c then g c :: rest else c :: modifyFirst p g rest

/-- One iteration of `populate_tree`'s row loop on a forest of siblings:
descend through `hierarchy` via `get_or_create_item`, then append the leaf
`name_item` to the innermost parent.  Matching an existing child modifies
that child in place (Python mutates the aliased item); otherwise the fresh
group item is appended and the recursion continues inside it. -/
def insertRowForest (forest : List Item) (hierarchy : List String) (row : Row)
    (name_label : String) (uid_label : Option String) : List Item :=
  match hierarchy with
  | [] => forest ++ [Item.node (mkLeafItemData row name_label uid_label) []]
  | lvl :: rest =>
    if forest.any (fun c => itemText0 c == rowGet row lvl) then
      modifyFirst (fun c => itemText0 c == rowGet row lvl)
        (fun c => Item.node c.dataOf
          (insertRowForest c.childrenOf rest row name_label uid_label)) forest
    else
      forest ++ [Item.node (newGroupItemData (rowGet row lvl))
        (insertRowForest [] rest row name_label uid_label)]

/-- The item forest `CustomTreeWidget.populate_tree` builds: clear the tree,
then insert every dataframe row in order under the hierarchy
`self.header_widget.get_order()`.  (Saving/restoring per-row combo-box
values and the visual expand/resize calls are outside the modelled state.) -/
def populate_forest (df : List Row) (hierarchy : List String)
    (name_label : String) (uid_label : Option String) : List Item :=
  df.foldl (fun forest row => insertRowForest forest hierarchy row name_label uid_label) []

mutual

/-- Apply a data update to every node of a tree (a `findItems`-style loop
that rewrites per-item fields). -/
def mapDataI (g : ItemData → ItemData) : Item → Item
  | .node d cs => .node (g d) (mapDataL g cs)

/-- `mapDataI` over a forest. -/
def mapDataL (g : ItemData → ItemData) : List Item → List Item
  | [] => []
  | c :: rest => mapDataI g c :: mapDataL g rest

end

/-- The restore-checkbox loop of `rearrange_hierarchy`:
`if uid and uid in saved_checked: item.setCheckState(0, Qt.Checked)`. -/
def checkByUids (uids : List String) (d : ItemData) : ItemData :=
  match d.uid with
  | some u => if u != "" && uids.contains u then { d with checkState := .Checked } else d
  | none => d

/-- `self.clearSelection()`. -/
def clearSelect (d : ItemData) : ItemData := { d with selected := false }

/-- The restore-selection loop:
`if uid and uid in uids: item.setSelected(True)`. -/
def selectIfUidIn (uids : List String) (d : ItemData) : ItemData :=
  match d.uid with
  | some u => if u != "" && uids.contains u then { d with selected := true } else d
  | none => d

mutual

/-- Pre-order list of the positions of every node of a tree sitting at
position `p`, in the order `findItems("", ... | Qt.MatchRecursive)` yields
the corresponding items. -/
def pathsT (p : List Nat) : Item → List (List Nat)
  | .node _ cs => p :: pathsL p 0 cs

/-- Positions of the nodes of the sibling list `cs`, whose parent sits at
`p` and whose first sibling has index `i`. -/
def pathsL (p : List Nat) (i : Nat) : List Item → List (List Nat)
  | [] => []
  | c :: rest => pathsT (p ++ [i]) c ++ pathsL p (i + 1) rest

end

/-- Positions of every item of the forest below the invisible root. -/
def allPathsF (f : List Item) : List (List Nat) := pathsL [] 0 f

/-- `CustomTreeWidget.update_all_parent_check_states`: iterate over
`reversed(all_items)` and run `update_parent_check_states` at each item.
(Python's `if item.parent():` guard only skips calls that do nothing: at a
top-level item the walk stops immediately, which is the `[i]`-path case of
`update_parent_forest`.) -/
def update_all_parent_check_states (f : List Item) : List Item :=
  (allPathsF f).reverse.foldl (fun acc p => update_parent_forest acc p) f

/-- One actors-dataframe row; `show_col` models the `"show"` cell.  The demo
seeds the column with the strings `"True"`/`"False"`, but
`emit_checkbox_toggled` overwrites a cell with a boolean whenever it differs
from `is_checked`, so a boolean cell is the faithful post-state model (the
write is skipped exactly when the cell already equals the boolean). -/
structure ActorRow where
  uid : String
  show_col : Bool
deriving DecidableEq, Repr

/-- `self.parent.actors_df.loc[self.parent.actors_df["uid"] == uid, "show"] = is_checked`:
set the `"show"` cell of every row whose `"uid"` equals `uid`. -/
def setShow (df : List ActorRow) (u : String) (b : Bool) : List ActorRow :=
  df.map (fun r => if r.uid == u then { r with show_col := b } else r)

/-- The dataframe loop of `emit_checkbox_toggled`: per item with a (truthy)
UID, read the first matching row's `"show"` cell (`.iloc[0]` raises — `none`
here — when no row matches) and overwrite the matching rows when it differs
from `is_checked`. -/
def updateShows : List Item → List ActorRow → Option (List ActorRow)
  | [], df => some df
  | it :: rest, df =>
    match truthyUid it with
    | none => updateShows rest df
    | some u =>
      match df.find? (fun r => r.uid == u) with
      | none => none
      | some r0 =>
        let isChecked := stateOf it == CheckState.Checked
        updateShows rest (if isChecked != r0.show_col then setShow df u isChecked else df)

/-- The whole widget-relevant state: the item forest below the invisible
root, the header buttons, the collection dataframe and labels, the
`checked_uids` bookkeeping list, `parent.collection.selected_uids`,
`parent.actors_df`, `parent.collection.name`, and the log of emitted
signals as (signal name, argument) pairs. -/
structure WidgetState where
  forest : List Item
  buttons : List HButton
  collection_df : List Row
  name_label : String
  uid_label : Option String
  checked_uids : List String
  selected_uids : List String
  actors_df : List ActorRow
  collection_name : String
  emitted : List (String × String)

/-- `CustomTreeWidget.restore_selection(uids_to_select)`: on a falsy
argument (`None` or the empty list) return immediately; otherwise clear the
selection, select exactly the items whose (truthy) UID is in the list, and
overwrite `parent.collection.selected_uids` with a copy of the list.
Signals are blocked throughout, so nothing is emitted. -/
def restore_selection (st : WidgetState) (uids_to_select : Option (List String)) :
    WidgetState :=
  match uids_to_select with
  | none => st
  | some us =>
    if us.isEmpty then st
    else
      { st with
        forest := mapDataL (selectIfUidIn us) (mapDataL clearSelect st.forest),
        selected_uids := us }

/-- `CustomTreeWidget.emit_selection_changed`: reset
`parent.collection.selected_uids`, append the (truthy) UID of every selected
item, and emit `itemsSelected` with the collection name. -/
def emit_selection_changed (st : WidgetState) : WidgetState :=
  { st with
    selected_uids := ((descList st.forest).filter (fun it => selectedOf it)).filterMap truthyUid,
    emitted := st.emitted ++ [("itemsSelected", st.collection_name)] }

/-- `CustomTreeWidget.emit_checkbox_toggled`: reconcile the `"show"` column
of `parent.actors_df` with the tree's check states, then emit the parent's
`checkboxToggled` signal with the collection name.  `none` models the
`IndexError` pandas raises when an item's UID has no row. -/
def emit_checkbox_toggled (st : WidgetState) : Option WidgetState :=
  match updateShows (descList st.forest) st.actors_df with
  | none => none
  | some df' =>
    some { st with
      actors_df := df'
      emitted := st.emitted ++ [("checkboxToggled", st.collection_name)] }

/-- `CustomTreeWidget.rearrange_hierarchy`: save `selected_uids` and
`checked_uids` (plus the UIDs of currently checked items not yet recorded),
repopulate the tree from scratch, re-check the items whose UID was saved,
recompute all parent check states, restore the selection, write the saved
lists back, and (when a selection was saved) emit the collection's
`itemsSelected` signal. -/
def rearrange_hierarchy (st : WidgetState) : WidgetState :=
  let saved_selected := st.selected_uids
  let saved_checked := (descList st.forest).foldl (fun acc it =>
      match truthyUid it with
      | some u =>
        if stateOf it == CheckState.Checked && !(acc.contains u) then acc ++ [u] else acc
      | none => acc) st.checked_uids
  let f1 := populate_forest st.collection_df (get_order st.buttons) st.name_label st.uid_label
  let f2 := mapDataL (checkByUids saved_checked) f1
  let f3 := update_all_parent_check_states f2
  let f4 := mapDataL clearSelect f3
  let f5 := if saved_selected.isEmpty then f4 else mapDataL (selectIfUidIn saved_selected) f4
  { st with
    forest := f5
    checked_uids := saved_checked
    selected_uids := saved_selected
    emitted := st.emitted ++
      (if saved_selected.isEmpty then [] else [("itemsSelected", st.collection_name)]) }

/-- Modelled from the spec: `CustomTreeWidget.add_items_to_tree` is not in
`src/custom_tree.py` (only its caller `MainWindow.test_add_random_items` in
the demo is); the spec lists "incremental add/remove" among the widget's
features.  For each collection row whose UID is in `uids`, insert that row's
leaf into the existing forest under the current header hierarchy — exactly
`populate_tree`'s per-row insertion, but starting from the current forest
instead of a cleared one (no complete rebuild). -/
def add_items_to_tree (st : WidgetState) (uids : List String) : WidgetState :=
  { st with
    forest := (st.collection_df.filter (fun r =>
        match uidOfRow r st.uid_label with
        | some u => uids.contains u
        | none => false)).foldl
      (fun f row => insertRowForest f (get_order st.buttons) row st.name_label st.uid_label)
      st.forest }

/-- Helper for `remove_items_from_tree`: delete every item whose stored UID
is in `uids`, recursively. -/
def removeByUids (uids : List String) : List Item → List Item
  | [] => []
  | .node d cs :: rest =>
    if (match d.uid with | some u => uids.contains u | none => false) then
      removeByUids uids rest
    else
      .node d (removeByUids uids cs) :: removeByUids uids rest

/-- Modelled from the spec: `CustomTreeWidget.remove_items_from_tree` is not
in `src/custom_tree.py` (only its caller `MainWindow.test_remove_random_items`
in the demo is); the spec lists "incremental add/remove" among the widget's
features.  Delete from the tree exactly the items carrying one of the given
UIDs, and drop the corresponding collection rows, leaving the rest of the
forest in place (no complete rebuild). -/
def remove_items_from_tree (st : WidgetState) (uids : List String) : WidgetState :=
  { st with
    forest := removeByUids uids st.forest
    collection_df := st.collection_df.filter (fun r =>
      match uidOfRow r st.uid_label with
      | some u => !(uids.contains u)
      | none => true) }

/-- Modelled from the spec: `CustomTreeWidget.set_selection_from_uids` is not
in `src/custom_tree.py` (only the demo's signal connection
`self.signals.newSelection.connect(self.tree_widget.set_selection_from_uids)`
is); the spec names "selection ... broadcasting" driven externally.  Replace
the tree selection with exactly the items carrying one of the given UIDs and
record the list in `parent.collection.selected_uids`. -/
def set_selection_from_uids (st : WidgetState) (uids : List String) : WidgetState :=
  { st with
    forest := mapDataL (selectIfUidIn uids) (mapDataL clearSelect st.forest)
    selected_uids := uids }

/-- Convenience constructor for concrete item data in closed test instances. -/
def sampleItemData (u : Option String) (s : CheckState) (sel : Bool) (t0 t1 : String) :
    ItemData :=
  { text0 := t0, text1 := t1, uid := u, checkState := s, userCheckable := true,
    autoTristate := true, selected := sel }

/-- Convenience constructor for a concrete widget state around a given
forest, in closed test instances. -/
def sampleState (f : List Item) : WidgetState :=
  { forest := f, buttons := [], collection_df := [], name_label := "name",
    uid_label := some "uid", checked_uids := [], selected_uids := [],
    actors_df := [], collection_name := "this_collection", emitted := [] }

/-- `hasLeafAt forest chain leafd`: below some node chain whose column-0
texts are exactly `chain` (in that nesting order), an item with data
`leafd` is present in `forest`. -/
def hasLeafAt : List Item → List String → ItemData → Bool
  | forest, [], leafd => forest.any (fun it => it.dataOf == leafd)
  | forest, lbl :: rest, leafd =>
    forest.any (fun it => itemText0 it == lbl && hasLeafAt it.childrenOf rest leafd)

/-- Functional characterization target for `updateShows`: the `"show"` cell
of a row ends up equal to `is_checked` of the (unique) item carrying the
row's UID, and untouched when no item carries it. -/
def showFn (items : List Item) (r : ActorRow) : ActorRow :=
  match items.find? (fun it => truthyUid it == some r.uid) with
  | some it => { r with show_col := stateOf it == CheckState.Checked }
  | none => r

/-- An item's data with the check state erased (used to say that a
transformation touches nothing but check states). -/
def eraseState (d : ItemData) : ItemData := { d with checkState := .Unchecked }

mutual

/-- `SimilarI t t'`: `t'` has the same shape as `t`, node for node the same
data except possibly the check state, and childless nodes (the only ones
that carry UIDs after a repopulation) are identical including their check
state.  This is the footprint of `update_parent_check_states`, which only
rewrites check states of items that have children. -/
inductive SimilarI : Item → Item → Prop where
  | node {d d' : ItemData} {cs cs' : List Item} :
      eraseState d = eraseState d' → (cs = [] → d = d') → SimilarL cs cs' →
      SimilarI (.node d cs) (.node d' cs')

/-- `SimilarI` on sibling lists, position by position. -/
inductive SimilarL : List Item → List Item → Prop where
  | nil : SimilarL [] []
  | cons {a b : Item} {as bs : List Item} :
      SimilarI a b → SimilarL as bs → SimilarL (a :: as) (b :: bs)

end

/-- Level discipline of the forest `populate_tree` builds: with remaining
hierarchy `[]` a children list holds only (childless) leaf items; below a
nonempty hierarchy it holds only group items (no stored UID) whose children
again follow the discipline.  Searched children lists therefore never mix
leaves into group levels, and UID-carrying items are exactly leaves. -/
def WFLevel : List String → List Item → Prop
  | [], f => ∀ it ∈ f, it.childrenOf = []
  | _ :: rest, f => ∀ it ∈ f, get_item_uid it = none ∧ WFLevel rest it.childrenOf

/-! ## Lemmas and claim theorems -/

theorem stateOf_setStateAll (it : Item) (s : CheckState) :
    stateOf (setStateAll it s) = s := by
  cases it with
  | node d cs => rfl

mutual

theorem descItem_setStateAll : ∀ (it : Item) (s : CheckState),
    ∀ c ∈ descItem (setStateAll it s), stateOf c = s
  | .node d cs, s, c, hc => by
    simp only [setStateAll, descItem] at hc
    exact descList_setStateAllList cs s c hc

theorem descList_setStateAllList : ∀ (l : List Item) (s : CheckState),
    ∀ c ∈ descList (setStateAllList l s), stateOf c = s
  | a :: rest, s, c, hc => by
    simp only [setStateAllList, descList, List.mem_cons, List.mem_append] at hc
    rcases hc with h | h | h
    · rw [h]; exact stateOf_setStateAll a s
    · exact descItem_setStateAll a s c h
    · exact descList_setStateAllList rest s c h

end

/-- C2: `update_child_check_states(item, s)` sets the check state of every
descendant of `item` (its children, their children, and so on) to `s`, and
leaves the item's own data — in particular its own check state —
unchanged. -/
theorem claim_C2 (it : Item) (s : CheckState) :
    stateOf (update_child_check_states it s) = stateOf it ∧
    (update_child_check_states it s).dataOf = it.dataOf ∧
    ∀ c ∈ descItem (update_child_check_states it s), stateOf c = s := by
  cases it with
  | node d cs =>
    refine ⟨rfl, rfl, fun c hc => ?_⟩
    simp only [update_child_check_states, descItem] at hc
    exact descList_setStateAllList cs s c hc

/-- Closed instance of `claim_C2`: a two-level tree, every descendant ends
`Checked`, the root keeps its `Unchecked` state. -/
theorem claim_C2_witness :
    stateOf (update_child_check_states
      (Item.node (sampleItemData none .Unchecked false "g" "")
        [Item.node (sampleItemData (some "1") .Unchecked false "" "Alpha") []])
      .Checked) = .Unchecked ∧
    stateOf (Item.node (sampleItemData (some "1") .Checked false "" "Alpha") []) = .Checked :=
  ⟨(claim_C2 (Item.node (sampleItemData none .Unchecked false "g" "")
      [Item.node (sampleItemData (some "1") .Unchecked false "" "Alpha") []]) .Checked).1,
   (claim_C2 (Item.node (sampleItemData none .Unchecked false "g" "")
      [Item.node (sampleItemData (some "1") .Unchecked false "" "Alpha") []]) .Checked).2.2
     (Item.node (sampleItemData (some "1") .Checked false "" "Alpha") []) (by decide)⟩

/-- C10: `restore_selection` called with `None` or an empty list returns
immediately: the whole widget state — forest (hence the current item
selection) and `parent.collection.selected_uids` — is left exactly as it
was, and nothing is emitted. -/
theorem claim_C10 (st : WidgetState) :
    restore_selection st none = st ∧ restore_selection st (some []) = st :=
  ⟨rfl, rfl⟩

/-- C6: `emit_selection_changed` replaces `parent.collection.selected_uids`
with exactly the UIDs of the currently selected items that carry a UID
(items without a stored UID — including the empty string, which the guard
`if uid:` treats as no UID — are omitted), and emits the collection's
`itemsSelected` signal with the collection name. -/
theorem claim_C6 (st : WidgetState) :
    ((emit_selection_changed st).emitted =
      st.emitted ++ [("itemsSelected", st.collection_name)]) ∧
    ((emit_selection_changed st).forest = st.forest) ∧
    ∀ u, u ∈ (emit_selection_changed st).selected_uids ↔
      ∃ it ∈ descList st.forest, selectedOf it = true ∧ truthyUid it = some u := by
  refine ⟨rfl, rfl, fun u => ?_⟩
  simp only [emit_selection_changed, List.mem_filterMap, List.mem_filter]
  constructor
  · rintro ⟨it, ⟨hmem, hsel⟩, hu⟩
    exact ⟨it, hmem, hsel, hu⟩
  · rintro ⟨it, hmem, hsel, hu⟩
    exact ⟨it, ⟨hmem, hsel⟩, hu⟩

/-- Closed instance of `claim_C6`: with one selected item carrying UID "1"
and one unselected item carrying UID "2", the new `selected_uids` contains
"1" and omits "2", and `itemsSelected` is emitted with the collection
name. -/
theorem claim_C6_witness :
    ("1" ∈ (emit_selection_changed (sampleState
        [Item.node (sampleItemData (some "1") .Unchecked true "" "Alpha") [],
         Item.node (sampleItemData (some "2") .Unchecked false "" "Beta") []])).selected_uids ∧
     ¬ "2" ∈ (emit_selection_changed (sampleState
        [Item.node (sampleItemData (some "1") .Unchecked true "" "Alpha") [],
         Item.node (sampleItemData (some "2") .Unchecked false "" "Beta") []])).selected_uids) ∧
    (emit_selection_changed (sampleState
        [Item.node (sampleItemData (some "1") .Unchecked true "" "Alpha") [],
         Item.node (sampleItemData (some "2") .Unchecked false "" "Beta") []])).emitted =
      [("itemsSelected", "this_collection")] := by
  refine ⟨⟨?_, ?_⟩, ?_⟩
  · exact ((claim_C6 _).2.2 "1").mpr
      ⟨Item.node (sampleItemData (some "1") .Unchecked true "" "Alpha") [], by decide, by decide, by decide⟩
  · decide
  · exact (claim_C6 _).1

theorem aggregate_of_getAtPathT_update (p : List Nat) :
    ∀ (t : Item) (k : Nat) (d : ItemData) (cs : List Item), p ≠ [] → k < p.length →
    getAtPathT (update_parent_check_states t p) (p.take k) = some (.node d cs) →
    d.checkState = aggregate cs := by
  induction p with
  | nil => intro t k d cs hne; exact absurd rfl hne
  | cons j q ih =>
    intro t k d cs _ hk hget
    cases t with
    | node d0 cs0 =>
      simp only [update_parent_check_states] at hget
      cases k with
      | zero =>
        simp only [List.take_zero, getAtPathT, Option.some.injEq] at hget
        cases hget
        rfl
      | succ k' =>
        simp only [List.take_succ_cons, getAtPathT] at hget
        rw [List.getElem?_modify] at hget
        cases hcj : cs0[j]? with
        | none => rw [hcj] at hget; simp at hget
        | some c =>
          rw [hcj] at hget
          simp only [Option.map_some', if_pos rfl] at hget
          have hql : k' < q.length := by
            simp only [List.length_cons] at hk
            omega
          have hqne : q ≠ [] := by
            intro hq
            rw [hq] at hql
            simp at hql
          exact ih c k' d cs hqne hql hget

/-- C1: after `update_parent_check_states(item)` returns for an item at
position `p` (so every `p.take k` with `1 ≤ k < p.length` is a proper
ancestor of the item, up to and including a top-level item), each such
ancestor's check state is `Checked` if all of its direct children are
`Checked`, `Unchecked` if all of its direct children are `Unchecked`, and
`PartiallyChecked` otherwise. -/
theorem claim_C1 (f : List Item) (p : List Nat) (k : Nat) (d : ItemData) (cs : List Item)
    (hk1 : 1 ≤ k) (hk2 : k < p.length)
    (hget : getAtPathF (update_parent_forest f p) (p.take k) = some (.node d cs)) :
    d.checkState =
      (if cs.all (fun c => stateOf c == CheckState.Checked) then CheckState.Checked
       else if cs.all (fun c => stateOf c == CheckState.Unchecked) then CheckState.Unchecked
       else CheckState.PartiallyChecked) := by
  cases p with
  | nil => simp at hk2
  | cons i q =>
    show d.checkState = aggregate cs
    simp only [update_parent_forest] at hget
    cases k with
    | zero => omega
    | succ k' =>
      simp only [List.take_succ_cons, getAtPathF] at hget
      rw [List.getElem?_modify] at hget
      cases hfi : f[i]? with
      | none => rw [hfi] at hget; simp at hget
      | some t =>
        rw [hfi] at hget
        simp only [Option.map_some', if_pos rfl] at hget
        have hql : k' < q.length := by
          simp only [List.length_cons] at hk2
          omega
        have hqne : q ≠ [] := by
          intro hq
          rw [hq] at hql
          simp at hql
        exact aggregate_of_getAtPathT_update q t k' d cs hqne hql hget

/-- Closed instance of `claim_C1`: a two-level tree with one checked and one
unchecked leaf; after the update the top-level ancestor of the first leaf is
`PartiallyChecked`, as the mixed-children rule demands. -/
theorem claim_C1_witness :
    getAtPathF
      (update_parent_forest
        [Item.node (sampleItemData none .Unchecked false "g" "")
          [Item.node (sampleItemData (some "1") .Checked false "" "Alpha") [],
           Item.node (sampleItemData (some "2") .Unchecked false "" "Beta") []]]
        [0, 0])
      [0] =
      some (Item.node (sampleItemData none .PartiallyChecked false "g" "")
        [Item.node (sampleItemData (some "1") .Checked false "" "Alpha") [],
         Item.node (sampleItemData (some "2") .Unchecked false "" "Beta") []]) ∧
    (sampleItemData none .PartiallyChecked false "g" "").checkState =
      (if [Item.node (sampleItemData (some "1") .Checked false "" "Alpha") [],
           Item.node (sampleItemData (some "2") .Unchecked false "" "Beta") []].all
            (fun c => stateOf c == CheckState.Checked) then CheckState.Checked
       else if [Item.node (sampleItemData (some "1") .Checked false "" "Alpha") [],
                Item.node (sampleItemData (some "2") .Unchecked false "" "Beta") []].all
            (fun c => stateOf c == CheckState.Unchecked) then CheckState.Unchecked
       else CheckState.PartiallyChecked) := by
  constructor
  · decide
  · exact claim_C1
      [Item.node (sampleItemData none .Unchecked false "g" "")
        [Item.node (sampleItemData (some "1") .Checked false "" "Alpha") [],
         Item.node (sampleItemData (some "2") .Unchecked false "" "Beta") []]]
      [0, 0] 1
      (sampleItemData none .PartiallyChecked false "g" "")
      [Item.node (sampleItemData (some "1") .Checked false "" "Alpha") [],
       Item.node (sampleItemData (some "2") .Unchecked false "" "Beta") []]
      (by decide) (by decide) (by decide)

theorem find?_eq_of_first {α : Type} (p : α → Bool) :
    ∀ (l : List α) (i : Nat) (hi : i < l.length), p (l.get ⟨i, hi⟩) = true →
    (∀ j (hj : j < i), ¬ p (l.get ⟨j, Nat.lt_trans hj hi⟩) = true) →
    l.find? p = some (l.get ⟨i, hi⟩) := by
  intro l
  induction l with
  | nil => intro i hi; simp at hi
  | cons a rest ih =>
    intro i hi hp hfirst
    cases i with
    | zero =>
      simp only [List.get] at hp
      simp [List.find?_cons, hp]
    | succ i' =>
      have hpa : p a = false := by
        have := hfirst 0 (Nat.succ_pos i')
        simp only [List.get] at this
        exact Bool.eq_false_iff.mpr this
      simp only [List.find?_cons, hpa]
      exact ih i' (Nat.lt_of_succ_lt_succ hi) hp
        (fun j hj => hfirst (j + 1) (Nat.succ_lt_succ hj))

/-- C9: `get_or_create_item(parent, text)` returns the first existing child
of the parent whose column-0 text is `text` without modifying the children;
otherwise it appends exactly one fresh user-checkable auto-tristate child
with that text and check state `Unchecked` (that is `newGroupItemData`).
Consequently the operation is idempotent, and it never pushes the number of
children with that text above `max (previous count) 1`. -/
theorem claim_C9 (cs : List Item) (t : String) :
    ((∀ c ∈ cs, itemText0 c ≠ t) →
      get_or_create_item cs t =
        (cs ++ [Item.node (newGroupItemData t) []], Item.node (newGroupItemData t) [])) ∧
    (∀ i (hi : i < cs.length), itemText0 (cs.get ⟨i, hi⟩) = t →
      (∀ j (hj : j < i), itemText0 (cs.get ⟨j, Nat.lt_trans hj hi⟩) ≠ t) →
      get_or_create_item cs t = (cs, cs.get ⟨i, hi⟩)) ∧
    get_or_create_item (get_or_create_item cs t).1 t = get_or_create_item cs t ∧
    (get_or_create_item cs t).1.countP (fun c => itemText0 c == t) =
      max (cs.countP (fun c => itemText0 c == t)) 1 := by
  refine ⟨?_, ?_, ?_, ?_⟩
  · intro h
    have hnone : cs.find? (fun c => itemText0 c == t) = none := by
      rw [List.find?_eq_none]
      intro x hx
      simp only [beq_iff_eq]
      exact h x hx
    simp [get_or_create_item, hnone]
  · intro i hi hp hfirst
    have hfind : cs.find? (fun c => itemText0 c == t) = some (cs.get ⟨i, hi⟩) := by
      apply find?_eq_of_first
      · simp only [beq_iff_eq]
        exact hp
      · intro j hj
        simp only [beq_iff_eq]
        exact hfirst j hj
    simp [get_or_create_item, hfind]
  · cases hfind : cs.find? (fun c => itemText0 c == t) with
    | some c => simp [get_or_create_item, hfind]
    | none =>
      have hnew : (fun c => itemText0 c == t) (Item.node (newGroupItemData t) []) = true := by
        simp [itemText0, Item.dataOf, newGroupItemData]
      simp [get_or_create_item, hfind, List.find?_append, hnew]
  · cases hfind : cs.find? (fun c => itemText0 c == t) with
    | some c =>
      have hpc : (fun c => itemText0 c == t) c = true :=
        List.find?_some (p := fun c => itemText0 c == t) hfind
      have hpos : 0 < cs.countP (fun c => itemText0 c == t) :=
        List.countP_pos_iff.mpr ⟨c, List.mem_of_find?_eq_some hfind, hpc⟩
      have heq : get_or_create_item cs t = (cs, c) := by
        simp [get_or_create_item, hfind]
      rw [heq]
      exact (Nat.max_eq_left hpos).symm
    | none =>
      have hzero : cs.countP (fun c => itemText0 c == t) = 0 :=
        List.countP_eq_zero.mpr (List.find?_eq_none.mp hfind)
      have heq : get_or_create_item cs t =
          (cs ++ [Item.node (newGroupItemData t) []], Item.node (newGroupItemData t) []) := by
        simp [get_or_create_item, hfind]
      rw [heq]
      show (cs ++ [Item.node (newGroupItemData t) []]).countP (fun c => itemText0 c == t) = _
      rw [List.countP_append, hzero]
      simp [List.countP_cons, itemText0, Item.dataOf, newGroupItemData]

/-- Closed instance of `claim_C9`: on an empty parent the call appends the
fresh unchecked group item; calling again with the same text returns that
same item and leaves the children untouched. -/
theorem claim_C9_witness :
    get_or_create_item [] "a" =
      ([Item.node (newGroupItemData "a") []], Item.node (newGroupItemData "a") []) ∧
    get_or_create_item [Item.node (newGroupItemData "a") []] "a" =
      ([Item.node (newGroupItemData "a") []], Item.node (newGroupItemData "a") []) :=
  ⟨(claim_C9 [] "a").1 (fun c hc => absurd hc (List.not_mem_nil c)),
   (claim_C9 [Item.node (newGroupItemData "a") []] "a").2.1 0 (by decide) (by decide)
     (fun j hj => absurd hj (Nat.not_lt_zero j))⟩

theorem any_modifyFirst {p q : Item → Bool} {g : Item → Item}
    (hg : ∀ c, p c = true → q (g c) = true) :
    ∀ l : List Item, l.any p = true → (modifyFirst p g l).any q = true := by
  intro l
  induction l with
  | nil => simp
  | cons c tl ih =>
    intro h
    by_cases hc : p c = true
    · simp [modifyFirst, hc, hg c hc]
    · have hc' : p c = false := Bool.eq_false_iff.mpr hc
      simp only [List.any_cons, hc', Bool.false_or] at h
      simp [modifyFirst, hc', List.any_cons, ih h]

theorem any_modifyFirst_mono {p q : Item → Bool} {g : Item → Item}
    (hq : ∀ c, q c = true → q (g c) = true) :
    ∀ l : List Item, l.any q = true → (modifyFirst p g l).any q = true := by
  intro l
  induction l with
  | nil => simp
  | cons c tl ih =>
    intro h
    simp only [List.any_cons, Bool.or_eq_true] at h
    by_cases hc : p c = true
    · rcases h with h | h
      · simp [modifyFirst, hc, List.any_cons, hq c h]
      · simp [modifyFirst, hc, List.any_cons, h]
    · have hc' : p c = false := Bool.eq_false_iff.mpr hc
      rcases h with h | h
      · simp [modifyFirst, hc', List.any_cons, h]
      · simp [modifyFirst, hc', List.any_cons, ih h]

theorem hasLeafAt_append_left {f g : List Item} {chain : List String} {leafd : ItemData}
    (h : hasLeafAt f chain leafd = true) : hasLeafAt (f ++ g) chain leafd = true := by
  cases chain with
  | nil =>
    simp only [hasLeafAt, List.any_append, Bool.or_eq_true] at h ⊢
    exact Or.inl h
  | cons lbl rest =>
    simp only [hasLeafAt, List.any_append, Bool.or_eq_true] at h ⊢
    exact Or.inl h

/-- Inserting one row makes its leaf data reachable below the chain of its
hierarchy values. -/
theorem insertRow_hasLeaf (row : Row) (nl : String) (ul : Option String) :
    ∀ (hierarchy : List String) (forest : List Item),
    hasLeafAt (insertRowForest forest hierarchy row nl ul)
      (hierarchy.map (fun lvl => rowGet row lvl)) (mkLeafItemData row nl ul) = true := by
  intro hierarchy
  induction hierarchy with
  | nil =>
    intro forest
    simp only [insertRowForest, List.map_nil, hasLeafAt, List.any_append, Bool.or_eq_true]
    right
    simp [Item.dataOf]
  | cons lvl rest ih =>
    intro forest
    simp only [insertRowForest, List.map_cons]
    by_cases hmatch : forest.any (fun c => itemText0 c == rowGet row lvl) = true
    · rw [if_pos hmatch]
      simp only [hasLeafAt]
      apply any_modifyFirst ?_ forest hmatch
      intro c hc
      simp only [Bool.and_eq_true]
      constructor
      · cases c with
        | node d cs => exact hc
      · cases c with
        | node d cs =>
          simp only [Item.childrenOf]
          exact ih cs
    · rw [if_neg hmatch]
      simp only [hasLeafAt, List.any_append, Bool.or_eq_true]
      right
      simp only [List.any_cons, List.any_nil, Bool.or_false, Bool.and_eq_true]
      constructor
      · simp [itemText0, Item.dataOf, newGroupItemData]
      · simp only [Item.childrenOf]
        exact ih []

/-- Inserting any further row preserves every leaf already reachable. -/
theorem insertRow_pres (row : Row) (nl : String) (ul : Option String) :
    ∀ (hierarchy : List String) (forest : List Item) (chain : List String) (leafd : ItemData),
    hasLeafAt forest chain leafd = true →
    hasLeafAt (insertRowForest forest hierarchy row nl ul) chain leafd = true := by
  intro hierarchy
  induction hierarchy with
  | nil =>
    intro forest chain leafd h
    simp only [insertRowForest]
    exact hasLeafAt_append_left h
  | cons lvl rest ih =>
    intro forest chain leafd h
    simp only [insertRowForest]
    by_cases hmatch : forest.any (fun c => itemText0 c == rowGet row lvl) = true
    · rw [if_pos hmatch]
      cases chain with
      | nil =>
        simp only [hasLeafAt] at h ⊢
        apply any_modifyFirst_mono ?_ forest h
        intro c hc
        cases c with
        | node d cs => exact hc
      | cons lbl crest =>
        simp only [hasLeafAt] at h ⊢
        apply any_modifyFirst_mono ?_ forest h
        intro c hc
        cases c with
        | node d cs =>
          simp only [itemText0, Item.dataOf, Item.childrenOf, Bool.and_eq_true] at hc ⊢
          exact ⟨hc.1, ih cs crest leafd hc.2⟩
    · rw [if_neg hmatch]
      exact hasLeafAt_append_left h

/-- Folding further insertions over a row list preserves reachable leaves. -/
theorem foldl_insert_pres (hierarchy : List String) (nl : String) (ul : Option String) :
    ∀ (df : List Row) (f : List Item) (chain : List String) (leafd : ItemData),
    hasLeafAt f chain leafd = true →
    hasLeafAt (df.foldl (fun acc row => insertRowForest acc hierarchy row nl ul) f)
      chain leafd = true := by
  intro df
  induction df with
  | nil => intro f chain leafd h; exact h
  | cons r tl ih =>
    intro f chain leafd h
    simp only [List.foldl_cons]
    exact ih _ chain leafd (insertRow_pres r nl ul hierarchy f chain leafd h)

/-- Folding row insertions over any starting forest makes every inserted
row's leaf reachable below its hierarchy chain. -/
theorem foldl_insert_has (hierarchy : List String) (nl : String) (ul : Option String) :
    ∀ (d : List Row) (f : List Item), ∀ row ∈ d,
    hasLeafAt (d.foldl (fun acc row => insertRowForest acc hierarchy row nl ul) f)
      (hierarchy.map (fun lvl => rowGet row lvl))
      (mkLeafItemData row nl ul) = true := by
  intro d
  induction d with
  | nil => intro f row hrow; exact absurd hrow (List.not_mem_nil row)
  | cons r tl ih =>
    intro f row hrow
    simp only [List.foldl_cons]
    rcases List.mem_cons.mp hrow with h | h
    · rw [h]
      exact foldl_insert_pres hierarchy nl ul tl _ _ _
        (insertRow_hasLeaf r nl ul hierarchy f)
    · exact ih _ row h

/-- The forest `populate_tree` builds contains, for every dataframe row,
that row's leaf data below the chain of the row's hierarchy values. -/
theorem populate_hasLeaf (hierarchy : List String) (nl : String) (ul : Option String)
    (df : List Row) :
    ∀ row ∈ df,
      hasLeafAt (populate_forest df hierarchy nl ul)
        (hierarchy.map (fun lvl => rowGet row lvl))
        (mkLeafItemData row nl ul) = true := by
  intro row hrow
  exact foldl_insert_has hierarchy nl ul df [] row hrow

/-- C3: `get_order` is exactly the texts of the checked header buttons in
their current left-to-right order, and `populate_tree` places each
dataframe row's leaf item below a chain of items whose column-0 texts are
that row's values for the checked columns, in exactly that order — the
nesting levels of the tree are the checked-button order. -/
theorem claim_C3 (buttons : List HButton) (df : List Row) (nl : String) (ul : Option String) :
    get_order buttons = (buttons.filter (fun b => b.checked)).map (fun b => b.text) ∧
    ∀ row ∈ df,
      hasLeafAt (populate_forest df (get_order buttons) nl ul)
        ((get_order buttons).map (fun lvl => rowGet row lvl))
        (mkLeafItemData row nl ul) = true :=
  ⟨rfl, populate_hasLeaf (get_order buttons) nl ul df⟩

/-- Closed instance of `claim_C3`: two buttons with the second unchecked;
the single row's leaf sits below exactly one level, labelled by the row's
value for the checked column. -/
theorem claim_C3_witness :
    hasLeafAt
      (populate_forest [[("role", "fault"), ("name", "Alpha"), ("uid", "1")]]
        (get_order [⟨"role", true⟩, ⟨"feature", false⟩]) "name" (some "uid"))
      ["fault"]
      (mkLeafItemData [("role", "fault"), ("name", "Alpha"), ("uid", "1")] "name" (some "uid")) =
      true := by
  have h := (claim_C3 [⟨"role", true⟩, ⟨"feature", false⟩]
      [[("role", "fault"), ("name", "Alpha"), ("uid", "1")]] "name" (some "uid")).2
      [("role", "fault"), ("name", "Alpha"), ("uid", "1")] (by decide)
  simpa using h

/-- C7: for a processed row with `uid_label` set (and the label a key of the
row), the leaf item built for that row stores `str(row[uid_label])` as its
column-0 `Qt.UserRole` data — so `get_item_uid` on that leaf returns the
row's UID — and that leaf is present in the populated forest below the
row's hierarchy chain. -/
theorem claim_C7 (buttons : List HButton) (df : List Row) (nl : String) (ul : String)
    (row : Row) (hrow : row ∈ df) (hul : ul ≠ "") (hhas : rowHas row ul = true) :
    get_item_uid (Item.node (mkLeafItemData row nl (some ul)) []) = some (rowGet row ul) ∧
    hasLeafAt (populate_forest df (get_order buttons) nl (some ul))
      ((get_order buttons).map (fun lvl => rowGet row lvl))
      (mkLeafItemData row nl (some ul)) = true := by
  constructor
  · simp only [get_item_uid, Item.dataOf, mkLeafItemData, uidOfRow]
    rw [if_pos]
    rw [Bool.and_eq_true, bne_iff_ne]
    exact ⟨hul, hhas⟩
  · exact populate_hasLeaf (get_order buttons) nl (some ul) df row hrow

/-- Closed instance of `claim_C7`: the demo's first row keeps UID "1" on its
leaf under the single checked column "role". -/
theorem claim_C7_witness :
    get_item_uid (Item.node
      (mkLeafItemData [("role", "fault"), ("name", "Alpha"), ("uid", "1")] "name" (some "uid"))
      []) = some "1" ∧
    hasLeafAt
      (populate_forest [[("role", "fault"), ("name", "Alpha"), ("uid", "1")]]
        (get_order [⟨"role", true⟩]) "name" (some "uid"))
      ((get_order [⟨"role", true⟩]).map
        (fun lvl => rowGet [("role", "fault"), ("name", "Alpha"), ("uid", "1")] lvl))
      (mkLeafItemData [("role", "fault"), ("name", "Alpha"), ("uid", "1")] "name" (some "uid")) =
      true := by
  have h := claim_C7 [⟨"role", true⟩] [[("role", "fault"), ("name", "Alpha"), ("uid", "1")]]
    "name" "uid" [("role", "fault"), ("name", "Alpha"), ("uid", "1")]
    (by decide) (by decide) (by decide)
  exact ⟨by simpa using h.1, h.2⟩

theorem eq_of_nodup_map {α β : Type} (f : α → β) :
    ∀ (l : List α), (l.map f).Nodup →
    ∀ a ∈ l, ∀ b ∈ l, f a = f b → a = b := by
  intro l
  induction l with
  | nil => intro _ a ha; exact absurd ha (List.not_mem_nil a)
  | cons x tl ih =>
    intro hnd a ha b hb hf
    simp only [List.map_cons, List.nodup_cons] at hnd
    rcases List.mem_cons.mp ha with rfl | ha' <;>
      rcases List.mem_cons.mp hb with rfl | hb'
    · rfl
    · exact absurd (hf ▸ List.mem_map_of_mem f hb') hnd.1
    · exact absurd (hf ▸ List.mem_map_of_mem f ha') hnd.1
    · exact ih hnd.2 a ha' b hb' hf

theorem eq_of_nodup_filterMap {α β : Type} (f : α → Option β) :
    ∀ (l : List α), (l.filterMap f).Nodup →
    ∀ a ∈ l, ∀ b ∈ l, ∀ u, f a = some u → f b = some u → a = b := by
  intro l
  induction l with
  | nil => intro _ a ha; exact absurd ha (List.not_mem_nil a)
  | cons x tl ih =>
    intro hnd a ha b hb u hfa hfb
    rcases List.mem_cons.mp ha with rfl | ha' <;>
      rcases List.mem_cons.mp hb with rfl | hb'
    · rfl
    · exfalso
      rw [List.filterMap_cons, hfa, List.nodup_cons] at hnd
      exact hnd.1 (List.mem_filterMap.mpr ⟨b, hb', hfb⟩)
    · exfalso
      rw [List.filterMap_cons, hfb, List.nodup_cons] at hnd
      exact hnd.1 (List.mem_filterMap.mpr ⟨a, ha', hfa⟩)
    · apply ih ?_ a ha' b hb' u hfa hfb
      rw [List.filterMap_cons] at hnd
      cases hfx : f x with
      | none => rw [hfx] at hnd; exact hnd
      | some v => rw [hfx] at hnd; exact (List.nodup_cons.mp hnd).2

/-- `updateShows` under the dataframe invariants: it succeeds and rewrites
each row's `"show"` cell to `is_checked` of the item carrying the row's
UID, leaving rows without a carrying item untouched. -/
theorem updateShows_char :
    ∀ (items : List Item) (df : List ActorRow),
    (items.filterMap truthyUid).Nodup →
    (df.map (fun r => r.uid)).Nodup →
    (∀ it ∈ items, ∀ u, truthyUid it = some u → ∃ r ∈ df, r.uid = u) →
    updateShows items df = some (df.map (showFn items)) := by
  intro items
  induction items with
  | nil =>
    intro df _ _ _
    have : ∀ r ∈ df, showFn [] r = r := by
      intro r _
      simp [showFn]
    rw [List.map_congr_left this, List.map_id']
    rfl
  | cons it rest ih =>
    intro df hnd hdfnd hpres
    cases hu : truthyUid it with
    | none =>
      have hnd' : (rest.filterMap truthyUid).Nodup := by
        rwa [List.filterMap_cons, hu] at hnd
      have hpres' : ∀ x ∈ rest, ∀ u, truthyUid x = some u → ∃ r ∈ df, r.uid = u :=
        fun x hx => hpres x (List.mem_cons_of_mem it hx)
      have hrec := ih df hnd' hdfnd hpres'
      have hmap : ∀ r ∈ df, showFn rest r = showFn (it :: rest) r := by
        intro r _
        simp only [showFn, List.find?_cons, hu]
        rfl
      simp only [updateShows, hu]
      rw [hrec, List.map_congr_left hmap]
    | some u =>
      have hpresu : ∃ r ∈ df, r.uid = u := hpres it (List.mem_cons_self it rest) u hu
      obtain ⟨rw0, hrw0mem, hrw0uid⟩ := hpresu
      have hfind : ∃ r0, df.find? (fun r => r.uid == u) = some r0 := by
        have : (df.find? (fun r => r.uid == u)).isSome :=
          List.find?_isSome.mpr ⟨rw0, hrw0mem, by simp [hrw0uid]⟩
        exact Option.isSome_iff_exists.mp this
      obtain ⟨r0, hr0⟩ := hfind
      have hr0mem : r0 ∈ df := List.mem_of_find?_eq_some hr0
      have hr0uid : r0.uid = u := by
        have := List.find?_some (p := fun r : ActorRow => r.uid == u) hr0
        simpa using this
      have huniq : ∀ r ∈ df, r.uid = u → r = r0 :=
        fun r hr hru => eq_of_nodup_map (fun r => r.uid) df hdfnd r hr r0 hr0mem
          (hru.trans hr0uid.symm)
      set c : Bool := stateOf it == CheckState.Checked with hc
      have hdf1 : (if c != r0.show_col then setShow df u c else df) =
          df.map (fun r => if r.uid == u then { r with show_col := c } else r) := by
        by_cases hne : (c != r0.show_col) = true
        · rw [if_pos hne]
          rfl
        · rw [if_neg hne]
          have hceq : c = r0.show_col := by
            have h1 : ¬ c ≠ r0.show_col := by
              simpa [bne_iff_ne] using hne
            exact not_not.mp h1
          have : ∀ r ∈ df, (if r.uid == u then { r with show_col := c } else r) = r := by
            intro r hr
            by_cases hru : (r.uid == u) = true
            · rw [if_pos hru]
              have hrr0 : r = r0 := huniq r hr (by simpa using hru)
              rw [hrr0, hceq]
            · rw [if_neg hru]
          rw [List.map_congr_left this, List.map_id']
      have hnd' : (rest.filterMap truthyUid).Nodup := by
        rw [List.filterMap_cons, hu] at hnd
        exact (List.nodup_cons.mp hnd).2
      have hnotin : u ∉ rest.filterMap truthyUid := by
        rw [List.filterMap_cons, hu] at hnd
        exact (List.nodup_cons.mp hnd).1
      set df1 := df.map (fun r => if r.uid == u then { r with show_col := c } else r) with hdf1def
      have huidpres : df1.map (fun r => r.uid) = df.map (fun r => r.uid) := by
        rw [hdf1def, List.map_map]
        apply List.map_congr_left
        intro r _
        by_cases hru : (r.uid == u) = true
        · simp [Function.comp, hru]
        · simp [Function.comp, hru]
      have hdf1nd : (df1.map (fun r => r.uid)).Nodup := by
        rw [huidpres]; exact hdfnd
      have hpres1 : ∀ x ∈ rest, ∀ v, truthyUid x = some v → ∃ r ∈ df1, r.uid = v := by
        intro x hx v hv
        obtain ⟨r, hr, hru⟩ := hpres x (List.mem_cons_of_mem it hx) v hv
        refine ⟨if r.uid == u then { r with show_col := c } else r, List.mem_map_of_mem _ hr, ?_⟩
        by_cases hq : (r.uid == u) = true
        · simp only [if_pos hq]
          exact hru
        · simp only [if_neg hq]
          exact hru
      have hrec := ih df1 hnd' hdf1nd hpres1
      have hstep : updateShows (it :: rest) df = updateShows rest df1 := by
        simp only [updateShows, hu, hr0]
        rw [hdf1]
      rw [hstep, hrec]
      congr 1
      rw [hdf1def, List.map_map]
      apply List.map_congr_left
      intro r hr
      by_cases hru : (r.uid == u) = true
      · have hruid : r.uid = u := by simpa using hru
        have hhead : (truthyUid it == some r.uid) = true := by
          rw [hu, hruid]
          simp
        have hfindnone :
            rest.find? (fun x => truthyUid x == some r.uid) = none := by
          rw [List.find?_eq_none]
          intro x hx hbx
          apply hnotin
          apply List.mem_filterMap.mpr
          refine ⟨x, hx, ?_⟩
          have : truthyUid x = some r.uid := by simpa using hbx
          rw [this, hruid]
        simp only [Function.comp, if_pos hru, showFn, List.find?_cons, hhead]
        simp only [hfindnone]
      · have hne2 : u ≠ r.uid := by
          have h1 : r.uid ≠ u := by simpa using hru
          exact fun h => h1 h.symm
        have hhead : (truthyUid it == some r.uid) = false := by
          rw [hu]
          exact beq_eq_false_iff_ne.mpr (fun h => hne2 (Option.some.inj h))
        simp only [Function.comp, if_neg hru, showFn, List.find?_cons, hhead]

/-- C5: after `emit_checkbox_toggled`, for every tree item carrying a UID
the `"show"` cell of the `actors_df` row with that UID is true exactly when
the item's check state is `Checked`; then the parent's `checkboxToggled`
signal is emitted once with the collection name.  The hypotheses are the
dataframe invariants of the host: tree UIDs are unique, `actors_df` UIDs
are unique, and every tree UID has an `actors_df` row (otherwise the pandas
`.iloc[0]` raises). -/
theorem claim_C5 (st : WidgetState)
    (hnd : ((descList st.forest).filterMap truthyUid).Nodup)
    (hdfnd : (st.actors_df.map (fun r => r.uid)).Nodup)
    (hpres : ∀ it ∈ descList st.forest, ∀ u, truthyUid it = some u →
      ∃ r ∈ st.actors_df, r.uid = u) :
    ∃ st', emit_checkbox_toggled st = some st' ∧
      (∀ it ∈ descList st.forest, ∀ u, truthyUid it = some u →
        ∀ r ∈ st'.actors_df, r.uid = u → (r.show_col = true ↔ stateOf it = .Checked)) ∧
      st'.emitted = st.emitted ++ [("checkboxToggled", st.collection_name)] ∧
      st'.forest = st.forest := by
  have hchar := updateShows_char (descList st.forest) st.actors_df hnd hdfnd hpres
  refine ⟨{ st with
      actors_df := st.actors_df.map (showFn (descList st.forest))
      emitted := st.emitted ++ [("checkboxToggled", st.collection_name)] },
    by simp only [emit_checkbox_toggled, hchar], ?_, rfl, rfl⟩
  intro it hit u hu r hr hru
  simp only at hr
  obtain ⟨r0, hr0mem, hr0eq⟩ := List.mem_map.mp hr
  have hr0uid : r0.uid = u := by
    have : r.uid = r0.uid := by
      rw [← hr0eq]
      simp only [showFn]
      cases (descList st.forest).find? (fun x => truthyUid x == some r0.uid) <;> rfl
    rw [← this, hru]
  have hfind : ∃ it', (descList st.forest).find?
      (fun x => truthyUid x == some r0.uid) = some it' := by
    have : ((descList st.forest).find? (fun x => truthyUid x == some r0.uid)).isSome :=
      List.find?_isSome.mpr ⟨it, hit, by simp [hu, hr0uid]⟩
    exact Option.isSome_iff_exists.mp this
  obtain ⟨it', hit'⟩ := hfind
  have hit'mem : it' ∈ descList st.forest := List.mem_of_find?_eq_some hit'
  have hit'uid : truthyUid it' = some u := by
    have := List.find?_some (p := fun x => truthyUid x == some r0.uid) hit'
    rw [hr0uid] at this
    simpa using this
  have heq : it' = it :=
    eq_of_nodup_filterMap truthyUid (descList st.forest) hnd it' hit'mem it hit u hit'uid hu
  rw [← hr0eq]
  simp only [showFn, hit', heq]
  constructor
  · intro h
    simpa using h
  · intro h
    simpa using h

/-- Closed instance of `claim_C5`: one checked item with UID "1" whose
actors row starts `show = false`; afterwards the row reads true and
`checkboxToggled` is emitted with the collection name. -/
theorem claim_C5_witness :
    ∃ st', emit_checkbox_toggled
        { sampleState [Item.node (sampleItemData (some "1") .Checked false "" "Alpha") []] with
          actors_df := [{ uid := "1", show_col := false }] } = some st' ∧
      (∀ it ∈ descList [Item.node (sampleItemData (some "1") .Checked false "" "Alpha") []],
        ∀ u, truthyUid it = some u →
        ∀ r ∈ st'.actors_df, r.uid = u → (r.show_col = true ↔ stateOf it = .Checked)) ∧
      st'.emitted = [("checkboxToggled", "this_collection")] := by
  obtain ⟨st', h1, h2, h3, -⟩ := claim_C5
    { sampleState [Item.node (sampleItemData (some "1") .Checked false "" "Alpha") []] with
      actors_df := [{ uid := "1", show_col := false }] }
    (by decide) (by decide)
    (by
      intro it hit u hu
      have hit' : it = Item.node (sampleItemData (some "1") .Checked false "" "Alpha") [] := by
        simpa [descList, descItem] using hit
      rw [hit'] at hu
      have htu : truthyUid
          (Item.node (sampleItemData (some "1") .Checked false "" "Alpha") []) =
          some "1" := by decide
      rw [htu] at hu
      have hu1 : u = "1" := (Option.some.injEq _ _).mp hu.symm
      exact ⟨{ uid := "1", show_col := false }, by decide, by rw [hu1]⟩)
  exact ⟨st', h1, h2, by simpa using h3⟩

theorem WFLevel_nil : ∀ (h : List String), WFLevel h [] := by
  intro h
  cases h with
  | nil => intro it hit; exact absurd hit (List.not_mem_nil it)
  | cons a b => intro it hit; exact absurd hit (List.not_mem_nil it)

theorem mem_modifyFirst {p : Item → Bool} {g : Item → Item} :
    ∀ {l : List Item} {x : Item}, x ∈ modifyFirst p g l →
    x ∈ l ∨ ∃ c ∈ l, p c = true ∧ x = g c := by
  intro l
  induction l with
  | nil => intro x hx; simp [modifyFirst] at hx
  | cons c tl ih =>
    intro x hx
    by_cases hc : p c = true
    · rw [modifyFirst, if_pos hc] at hx
      rcases List.mem_cons.mp hx with rfl | hx'
      · exact Or.inr ⟨c, List.mem_cons_self c tl, hc, rfl⟩
      · exact Or.inl (List.mem_cons_of_mem c hx')
    · rw [modifyFirst, if_neg hc] at hx
      rcases List.mem_cons.mp hx with rfl | hx'
      · exact Or.inl (List.mem_cons_self x tl)
      · rcases ih hx' with h | ⟨c', hc', hpc', hxg⟩
        · exact Or.inl (List.mem_cons_of_mem c h)
        · exact Or.inr ⟨c', List.mem_cons_of_mem c hc', hpc', hxg⟩

/-- Inserting a row keeps the level discipline of the forest. -/
theorem WFLevel_insert (row : Row) (nl : String) (ul : Option String) :
    ∀ (hierarchy : List String) (f : List Item),
    WFLevel hierarchy f → WFLevel hierarchy (insertRowForest f hierarchy row nl ul) := by
  intro hierarchy
  induction hierarchy with
  | nil =>
    intro f hwf
    simp only [insertRowForest, WFLevel]
    intro it hit
    rcases List.mem_append.mp hit with h | h
    · exact hwf it h
    · rcases List.mem_singleton.mp h with rfl
      rfl
  | cons lvl rest ih =>
    intro f hwf
    simp only [insertRowForest]
    by_cases hmatch : f.any (fun c => itemText0 c == rowGet row lvl) = true
    · rw [if_pos hmatch]
      intro it hit
      rcases mem_modifyFirst hit with h | ⟨c, hc, _, rfl⟩
      · exact hwf it h
      · obtain ⟨huid, hcwf⟩ := hwf c hc
        cases c with
        | node d cs =>
          refine ⟨huid, ?_⟩
          simp only [Item.dataOf, Item.childrenOf] at hcwf ⊢
          exact ih cs hcwf
    · rw [if_neg hmatch]
      intro it hit
      rcases List.mem_append.mp hit with h | h
      · exact hwf it h
      · rcases List.mem_singleton.mp h with rfl
        refine ⟨rfl, ?_⟩
        simp only [Item.childrenOf]
        exact ih [] (WFLevel_nil rest)

/-- The populated forest obeys the level discipline. -/
theorem WFLevel_populate (hierarchy : List String) (nl : String) (ul : Option String)
    (df : List Row) : WFLevel hierarchy (populate_forest df hierarchy nl ul) := by
  suffices hgen : ∀ (d : List Row) (f : List Item), WFLevel hierarchy f →
      WFLevel hierarchy (d.foldl (fun acc row => insertRowForest acc hierarchy row nl ul) f) by
    exact hgen df [] (WFLevel_nil hierarchy)
  intro d
  induction d with
  | nil => intro f hwf; exact hwf
  | cons r tl ih =>
    intro f hwf
    simp only [List.foldl_cons]
    exact ih _ (WFLevel_insert r nl ul hierarchy f hwf)

theorem descList_append :
    ∀ (a b : List Item), descList (a ++ b) = descList a ++ descList b := by
  intro a
  induction a with
  | nil => intro b; rfl
  | cons c tl ih =>
    intro b
    rw [List.cons_append]
    show c :: (descItem c ++ descList (tl ++ b)) = (c :: (descItem c ++ descList tl)) ++ descList b
    rw [ih, List.cons_append, List.append_assoc]

/-- Under the level discipline, every item carrying a stored UID is
childless. -/
theorem WFLevel_uid_leaf :
    ∀ (hierarchy : List String) (f : List Item), WFLevel hierarchy f →
    ∀ it ∈ descList f, (get_item_uid it).isSome → it.childrenOf = [] := by
  intro hierarchy
  induction hierarchy with
  | nil =>
    intro f hwf
    induction f with
    | nil => intro it hit; exact absurd hit (List.not_mem_nil it)
    | cons c tl ihf =>
      intro it hit hsome
      have hc : c.childrenOf = [] := hwf c (List.mem_cons_self c tl)
      rcases List.mem_cons.mp hit with rfl | hit'
      · exact hc
      · rcases List.mem_append.mp hit' with h | h
        · exfalso
          cases c with
          | node d cs =>
            simp only [Item.childrenOf] at hc
            rw [hc] at h
            simp [descItem, descList] at h
        · exact ihf (fun x hx => hwf x (List.mem_cons_of_mem c hx)) it h hsome
  | cons lvl rest ih =>
    intro f hwf
    induction f with
    | nil => intro it hit; exact absurd hit (List.not_mem_nil it)
    | cons c tl ihf =>
      intro it hit hsome
      obtain ⟨huid, hcwf⟩ := hwf c (List.mem_cons_self c tl)
      rcases List.mem_cons.mp hit with rfl | hit'
      · rw [huid] at hsome
        simp at hsome
      · rcases List.mem_append.mp hit' with h | h
        · cases c with
          | node d cs =>
            simp only [Item.childrenOf] at hcwf
            exact ih cs hcwf it h hsome
        · exact ihf (fun x hx => hwf x (List.mem_cons_of_mem c hx)) it h hsome

theorem similarL_nil_left : ∀ {l : List Item}, SimilarL [] l → l = []
  | _, .nil => rfl

mutual

theorem similarI_refl : ∀ (t : Item), SimilarI t t
  | .node _d cs => .node rfl (fun _ => rfl) (similarL_refl cs)

theorem similarL_refl : ∀ (l : List Item), SimilarL l l
  | [] => .nil
  | a :: as => .cons (similarI_refl a) (similarL_refl as)

end

mutual

theorem similarI_trans : ∀ {a b c : Item}, SimilarI a b → SimilarI b c → SimilarI a c
  | _, _, _, .node h1 h2 h3, .node g1 g2 g3 => by
    refine .node (h1.trans g1) (fun hnil => ?_) (similarL_trans h3 g3)
    subst hnil
    exact (h2 rfl).trans (g2 (similarL_nil_left h3))

theorem similarL_trans : ∀ {a b c : List Item}, SimilarL a b → SimilarL b c → SimilarL a c
  | _, _, _, .nil, .nil => .nil
  | _, _, _, .cons hab hr, .cons hbc gr =>
    .cons (similarI_trans hab hbc) (similarL_trans hr gr)

end

theorem similarL_modify (g : Item → Item) :
    ∀ (l : List Item) (j : Nat), (∀ c, l[j]? = some c → SimilarI c (g c)) →
    SimilarL l (List.modify g j l) := by
  intro l
  induction l with
  | nil =>
    intro j _
    rw [List.modify_nil]
    exact .nil
  | cons a tl ih =>
    intro j h
    cases j with
    | zero =>
      rw [List.modify_zero_cons]
      exact .cons (h a (by simp)) (similarL_refl tl)
    | succ j' =>
      rw [List.modify_succ_cons]
      exact .cons (similarI_refl a) (ih j' (fun c hc => h c (by simpa using hc)))

theorem similarI_update_parent : ∀ (p : List Nat) (t : Item),
    (getAtPathT t p).isSome → SimilarI t (update_parent_check_states t p) := by
  intro p
  induction p with
  | nil =>
    intro t _
    have hup : update_parent_check_states t [] = t := by
      cases t with
      | node d cs => rfl
    rw [hup]
    exact similarI_refl t
  | cons j q ih =>
    intro t h
    cases t with
    | node d cs =>
      simp only [getAtPathT] at h
      cases hc : cs[j]? with
      | none => rw [hc] at h; simp at h
      | some c =>
        rw [hc] at h
        simp only [update_parent_check_states]
        refine SimilarI.node rfl (fun hnil => ?_) ?_
        · exfalso
          subst hnil
          simp at hc
        · apply similarL_modify
          intro c0 hc0
          have hcc : c0 = c := by
            rw [hc] at hc0
            exact (Option.some.inj hc0).symm
          subst hcc
          exact ih c0 h

theorem similarL_update_parent_forest (f : List Item) (p : List Nat)
    (h : (getAtPathF f p).isSome) : SimilarL f (update_parent_forest f p) := by
  cases p with
  | nil => exact similarL_refl f
  | cons i q =>
    simp only [getAtPathF] at h
    simp only [update_parent_forest]
    apply similarL_modify
    intro c hc
    rw [hc] at h
    exact similarI_update_parent q c h

mutual

theorem pathsT_valid : ∀ (t : Item) (p p' : List Nat), p' ∈ pathsT p t →
    ∃ q, p' = p ++ q ∧ (getAtPathT t q).isSome
  | .node _d cs, p, p', hmem => by
    simp only [pathsT, List.mem_cons] at hmem
    rcases hmem with rfl | hmem
    · exact ⟨[], by simp, by simp [getAtPathT]⟩
    · obtain ⟨j, c, q, hc, hp', hq⟩ := pathsL_valid cs p 0 p' hmem
      refine ⟨j :: q, by simpa using hp', ?_⟩
      simp only [getAtPathT, hc]
      exact hq

theorem pathsL_valid : ∀ (l : List Item) (p : List Nat) (i : Nat) (p' : List Nat),
    p' ∈ pathsL p i l →
    ∃ j c q, l[j]? = some c ∧ p' = p ++ ((i + j) :: q) ∧ (getAtPathT c q).isSome
  | [], p, i, p', hmem => by simp [pathsL] at hmem
  | c0 :: rest, p, i, p', hmem => by
    simp only [pathsL, List.mem_append] at hmem
    rcases hmem with hmem | hmem
    · obtain ⟨q, hp', hq⟩ := pathsT_valid c0 (p ++ [i]) p' hmem
      refine ⟨0, c0, q, by simp, ?_, hq⟩
      rw [hp', List.append_assoc]
      simp
    · obtain ⟨j, c, q, hc, hp', hq⟩ := pathsL_valid rest p (i + 1) p' hmem
      refine ⟨j + 1, c, q, by simpa using hc, ?_, hq⟩
      rw [hp']
      have harith : i + 1 + j = i + (j + 1) := by omega
      rw [harith]

end

theorem allPathsF_valid (f : List Item) : ∀ p ∈ allPathsF f, (getAtPathF f p).isSome := by
  intro p hp
  obtain ⟨j, c, q, hc, hp', hq⟩ := pathsL_valid f [] 0 p hp
  rw [hp', List.nil_append]
  show (getAtPathF f ((0 + j) :: q)).isSome
  rw [Nat.zero_add]
  simp only [getAtPathF, hc]
  exact hq

theorem similarL_getElem : ∀ {as bs : List Item}, SimilarL as bs →
    ∀ {j : Nat} {c : Item}, as[j]? = some c → ∃ c', bs[j]? = some c' ∧ SimilarI c c'
  | _, _, .nil, j, c, hc => by simp at hc
  | _, _, @SimilarL.cons a b as bs hab hr, j, c, hc => by
    cases j with
    | zero =>
      have : a = c := by simpa using hc
      subst this
      exact ⟨b, by simp, hab⟩
    | succ j' =>
      have hc' : as[j']? = some c := by simpa using hc
      obtain ⟨c', hgc', hs⟩ := similarL_getElem hr hc'
      exact ⟨c', by simpa using hgc', hs⟩

theorem similarT_path : ∀ (p : List Nat) {t t' : Item}, SimilarI t t' →
    (getAtPathT t p).isSome → (getAtPathT t' p).isSome := by
  intro p
  induction p with
  | nil => intro t t' _ _; simp [getAtPathT]
  | cons j q ih =>
    intro t t' hs h
    cases t with
    | node d cs =>
      cases t' with
      | node d' cs' =>
        cases hs with
        | node h1 h2 h3 =>
          simp only [getAtPathT] at h ⊢
          cases hc : cs[j]? with
          | none => rw [hc] at h; simp at h
          | some c =>
            rw [hc] at h
            obtain ⟨c', hc', hcc'⟩ := similarL_getElem h3 hc
            rw [hc']
            exact ih hcc' h

theorem similarF_path {f f' : List Item} (hs : SimilarL f f') :
    ∀ (p : List Nat), (getAtPathF f p).isSome → (getAtPathF f' p).isSome := by
  intro p h
  cases p with
  | nil => simp [getAtPathF] at h
  | cons i q =>
    simp only [getAtPathF] at h ⊢
    cases hc : f[i]? with
    | none => rw [hc] at h; simp at h
    | some t =>
      rw [hc] at h
      obtain ⟨t', ht', htt'⟩ := similarL_getElem hs hc
      rw [ht']
      exact similarT_path q htt' h

theorem foldl_update_similar (f : List Item) :
    ∀ (ps : List (List Nat)) (g : List Item), SimilarL f g →
    (∀ p ∈ ps, (getAtPathF f p).isSome) →
    SimilarL f (ps.foldl (fun acc p => update_parent_forest acc p) g) := by
  intro ps
  induction ps with
  | nil => intro g hg _; exact hg
  | cons p ps' ih =>
    intro g hg hvalid
    simp only [List.foldl_cons]
    apply ih
    · exact similarL_trans hg (similarL_update_parent_forest g p
        (similarF_path hg p (hvalid p (List.mem_cons_self p ps'))))
    · exact fun p' hp' => hvalid p' (List.mem_cons_of_mem p hp')

/-- `update_all_parent_check_states` only rewrites check states of items
with children: the result is `Similar` to the input forest. -/
theorem update_all_similar (f : List Item) :
    SimilarL f (update_all_parent_check_states f) := by
  apply foldl_update_similar f _ f (similarL_refl f)
  intro p hp
  exact allPathsF_valid f p (List.mem_reverse.mp hp)

mutual

theorem similarL_desc : ∀ {as bs : List Item}, SimilarL as bs →
    ∀ it' ∈ descList bs, ∃ it ∈ descList as, SimilarI it it'
  | _, _, .nil, it', h => by simp [descList] at h
  | _, _, @SimilarL.cons a b as bs hab hr, it', h => by
    simp only [descList, List.mem_cons, List.mem_append] at h
    rcases h with rfl | h | h
    · exact ⟨a, by simp [descList], hab⟩
    · obtain ⟨it, hit, hs⟩ := similarI_desc hab it' h
      refine ⟨it, ?_, hs⟩
      simp only [descList, List.mem_cons, List.mem_append]
      exact Or.inr (Or.inl hit)
    · obtain ⟨it, hit, hs⟩ := similarL_desc hr it' h
      refine ⟨it, ?_, hs⟩
      simp only [descList, List.mem_cons, List.mem_append]
      exact Or.inr (Or.inr hit)

theorem similarI_desc : ∀ {a b : Item}, SimilarI a b →
    ∀ it' ∈ descItem b, ∃ it ∈ descItem a, SimilarI it it'
  | .node _ _, .node _ _, .node _ _ h3, it', h => by
    simp only [descItem] at h ⊢
    exact similarL_desc h3 it' h

end

theorem similarI_uid {a b : Item} (h : SimilarI a b) :
    get_item_uid a = get_item_uid b := by
  cases h with
  | node h1 _ _ =>
    simp only [get_item_uid, Item.dataOf]
    have h2 := congrArg ItemData.uid h1
    simpa [eraseState] using h2

theorem similarI_leaf_eq {a b : Item} (h : SimilarI a b)
    (hb : b.childrenOf = []) : a = b := by
  cases h with
  | @node d d' cs cs' h1 h2 h3 =>
    simp only [Item.childrenOf] at hb
    subst hb
    cases h3 with
    | nil => rw [h2 rfl]

theorem dataOf_mapDataI (g : ItemData → ItemData) (t : Item) :
    (mapDataI g t).dataOf = g t.dataOf := by
  cases t with
  | node d cs => rfl

theorem childrenOf_mapDataI (g : ItemData → ItemData) (t : Item) :
    (mapDataI g t).childrenOf = mapDataL g t.childrenOf := by
  cases t with
  | node d cs => rfl

mutual

theorem descList_mapDataL (g : ItemData → ItemData) :
    ∀ (l : List Item), descList (mapDataL g l) = (descList l).map (mapDataI g)
  | [] => rfl
  | c :: rest => by
    show mapDataI g c :: (descItem (mapDataI g c) ++ descList (mapDataL g rest)) =
      (c :: (descItem c ++ descList rest)).map (mapDataI g)
    rw [descItem_mapDataI g c, descList_mapDataL g rest]
    simp [List.map_append]

theorem descItem_mapDataI (g : ItemData → ItemData) :
    ∀ (t : Item), descItem (mapDataI g t) = (descItem t).map (mapDataI g)
  | .node _d cs => by
    show descList (mapDataL g cs) = (descList cs).map (mapDataI g)
    exact descList_mapDataL g cs

end

theorem foldSaved_mono :
    ∀ (items : List Item) (acc : List String) (u : String), u ∈ acc →
    u ∈ items.foldl (fun acc it =>
      match truthyUid it with
      | some v =>
        if stateOf it == CheckState.Checked && !(acc.contains v) then acc ++ [v] else acc
      | none => acc) acc := by
  intro items
  induction items with
  | nil => intro acc u hu; exact hu
  | cons it rest ih =>
    intro acc u hu
    simp only [List.foldl_cons]
    apply ih
    cases htu : truthyUid it with
    | none => simpa [htu] using hu
    | some v =>
      simp only [htu]
      by_cases hcond : (stateOf it == CheckState.Checked && !(acc.contains v)) = true
      · rw [if_pos hcond]
        exact List.mem_append_left _ hu
      · rw [if_neg hcond]
        exact hu

theorem foldSaved_item :
    ∀ (items : List Item) (acc : List String) (u : String) (it0 : Item),
    it0 ∈ items → truthyUid it0 = some u → stateOf it0 = .Checked →
    u ∈ items.foldl (fun acc it =>
      match truthyUid it with
      | some v =>
        if stateOf it == CheckState.Checked && !(acc.contains v) then acc ++ [v] else acc
      | none => acc) acc := by
  intro items
  induction items with
  | nil => intro acc u it0 h; exact absurd h (List.not_mem_nil it0)
  | cons it rest ih =>
    intro acc u it0 hmem huid hst
    rcases List.mem_cons.mp hmem with rfl | hmem'
    · simp only [List.foldl_cons, huid]
      by_cases hin : acc.contains u = true
      · apply foldSaved_mono
        by_cases hcond : (stateOf it0 == CheckState.Checked && !(acc.contains u)) = true
        · rw [if_pos hcond]
          exact List.mem_append_left _ (by simpa using hin)
        · rw [if_neg hcond]
          simpa using hin
      · have hcond : (stateOf it0 == CheckState.Checked && !(acc.contains u)) = true := by
          rw [Bool.and_eq_true]
          refine ⟨by rw [hst]; simp, ?_⟩
          cases hcb : acc.contains u with
          | false => rfl
          | true => exact absurd hcb hin
        rw [if_pos hcond]
        apply foldSaved_mono
        exact List.mem_append_right _ (List.mem_singleton.mpr rfl)
    · simp only [List.foldl_cons]
      exact ih _ u it0 hmem' huid hst

theorem checkByUids_uid (saved : List String) (d : ItemData) :
    (checkByUids saved d).uid = d.uid := by
  unfold checkByUids
  cases hdu : d.uid with
  | none => exact hdu
  | some u0 =>
    dsimp only
    split
    · rfl
    · exact hdu

theorem checkByUids_sel (saved : List String) (d : ItemData) :
    (checkByUids saved d).selected = d.selected := by
  unfold checkByUids
  cases hdu : d.uid with
  | none => rfl
  | some u0 =>
    dsimp only
    split
    · rfl
    · rfl

theorem selectIfUidIn_uid (uids : List String) (d : ItemData) :
    (selectIfUidIn uids d).uid = d.uid := by
  unfold selectIfUidIn
  cases hdu : d.uid with
  | none => exact hdu
  | some u0 =>
    dsimp only
    split
    · rfl
    · exact hdu

theorem selectIfUidIn_state (uids : List String) (d : ItemData) :
    (selectIfUidIn uids d).checkState = d.checkState := by
  unfold selectIfUidIn
  cases hdu : d.uid with
  | none => rfl
  | some u0 =>
    dsimp only
    split
    · rfl
    · rfl

theorem get_item_uid_mapDataI (g : ItemData → ItemData) (t : Item) :
    get_item_uid (mapDataI g t) = (g t.dataOf).uid := by
  cases t with
  | node d cs => rfl

theorem stateOf_mapDataI (g : ItemData → ItemData) (t : Item) :
    stateOf (mapDataI g t) = (g t.dataOf).checkState := by
  cases t with
  | node d cs => rfl

theorem selectedOf_mapDataI (g : ItemData → ItemData) (t : Item) :
    selectedOf (mapDataI g t) = (g t.dataOf).selected := by
  cases t with
  | node d cs => rfl

/-- After the restore-checkbox pass, every item whose (nonempty) UID is in
the saved list is `Checked`. -/
theorem checked_after_restore (saved : List String) (f1 : List Item) :
    ∀ it ∈ descList (mapDataL (checkByUids saved) f1), ∀ u,
    get_item_uid it = some u → u ≠ "" → u ∈ saved → stateOf it = .Checked := by
  intro it hit u huid hne hmem
  rw [descList_mapDataL] at hit
  obtain ⟨it1, _hit1, rfl⟩ := List.mem_map.mp hit
  rw [get_item_uid_mapDataI, checkByUids_uid] at huid
  rw [stateOf_mapDataI]
  unfold checkByUids
  rw [huid]
  dsimp only
  have hcond : (u != "" && (saved.contains u)) = true := by
    rw [Bool.and_eq_true]
    exact ⟨bne_iff_ne.mpr hne, by simp [hmem]⟩
  rw [if_pos hcond]

/-- After the restore-checkbox pass over a freshly populated forest, every
UID-carrying item is still childless. -/
theorem uid_leaf_after_restore (hierarchy : List String) (nl : String)
    (ul : Option String) (df : List Row) (saved : List String) :
    ∀ it ∈ descList (mapDataL (checkByUids saved) (populate_forest df hierarchy nl ul)),
    (get_item_uid it).isSome → it.childrenOf = [] := by
  intro it hit hsome
  rw [descList_mapDataL] at hit
  obtain ⟨it1, hit1, rfl⟩ := List.mem_map.mp hit
  rw [get_item_uid_mapDataI, checkByUids_uid] at hsome
  have hleaf : it1.childrenOf = [] :=
    WFLevel_uid_leaf hierarchy _ (WFLevel_populate hierarchy nl ul df) it1 hit1
      (by cases it1 with | node d cs => exact hsome)
  rw [childrenOf_mapDataI, hleaf]
  rfl

theorem similarI_leaf_eq_left {a b : Item} (h : SimilarI a b)
    (ha : a.childrenOf = []) : a = b := by
  cases h with
  | @node d d' cs cs' h1 h2 h3 =>
    simp only [Item.childrenOf] at ha
    subst ha
    have hcs' : cs' = [] := similarL_nil_left h3
    subst hcs'
    rw [h2 rfl]

theorem selectIfUidIn_clear_selected_iff (uids : List String) (d : ItemData) :
    (selectIfUidIn uids (clearSelect d)).selected = true ↔
      ∃ u, d.uid = some u ∧ u ≠ "" ∧ u ∈ uids := by
  unfold selectIfUidIn clearSelect
  cases hdu : d.uid with
  | none =>
    constructor
    · intro h
      simp at h
    · rintro ⟨u, hu, -⟩
      exact absurd hu (by simp)
  | some u0 =>
    dsimp only
    by_cases hcond : (u0 != "" && (uids.contains u0)) = true
    · rw [if_pos hcond]
      rw [Bool.and_eq_true, bne_iff_ne] at hcond
      constructor
      · intro _
        exact ⟨u0, rfl, hcond.1, by simpa using hcond.2⟩
      · intro _
        rfl
    · rw [if_neg hcond]
      constructor
      · intro h
        simp at h
      · rintro ⟨u, hu, hne, hmem⟩
        exfalso
        have : u = u0 := (Option.some.inj hu).symm
        subst this
        apply hcond
        rw [Bool.and_eq_true, bne_iff_ne]
        exact ⟨hne, by simp [hmem]⟩

/-- C4: `rearrange_hierarchy` rebuilds the tree but preserves
identity-keyed state: afterwards (i) `parent.collection.selected_uids` is
exactly its value from before the rebuild, (ii) every item whose (nonempty)
UID was recorded in `checked_uids` or carried by a `Checked` item before the
rebuild is `Checked` again, and (iii) exactly the items carrying one of the
saved selected UIDs are selected. -/
theorem claim_C4 (st : WidgetState) :
    (rearrange_hierarchy st).selected_uids = st.selected_uids ∧
    (∀ it ∈ descList (rearrange_hierarchy st).forest, ∀ u,
      get_item_uid it = some u → u ≠ "" →
      (u ∈ st.checked_uids ∨
        ∃ it0 ∈ descList st.forest, truthyUid it0 = some u ∧ stateOf it0 = .Checked) →
      stateOf it = .Checked) ∧
    (∀ it ∈ descList (rearrange_hierarchy st).forest,
      selectedOf it = true ↔
        ∃ u, get_item_uid it = some u ∧ u ≠ "" ∧ u ∈ st.selected_uids) := by
  refine ⟨rfl, ?_, ?_⟩
  · intro it hit u huid hne hsrc
    simp only [rearrange_hierarchy] at hit
    have hsc : u ∈ (descList st.forest).foldl (fun acc it =>
        match truthyUid it with
        | some u =>
          if stateOf it == CheckState.Checked && !(acc.contains u) then acc ++ [u] else acc
        | none => acc) st.checked_uids := by
      rcases hsrc with h | ⟨it0, hit0, htu, hst0⟩
      · exact foldSaved_mono (descList st.forest) st.checked_uids u h
      · exact foldSaved_item (descList st.forest) st.checked_uids u it0 hit0 htu hst0
    have hcore : ∀ it3 ∈ descList (update_all_parent_check_states
        (mapDataL (checkByUids ((descList st.forest).foldl (fun acc it =>
          match truthyUid it with
          | some u =>
            if stateOf it == CheckState.Checked && !(acc.contains u) then acc ++ [u] else acc
          | none => acc) st.checked_uids))
        (populate_forest st.collection_df (get_order st.buttons) st.name_label st.uid_label))),
        get_item_uid it3 = some u → stateOf it3 = .Checked := by
      intro it3 hit3 huid3
      obtain ⟨it2, hit2, hsim⟩ := similarL_desc (update_all_similar _) it3 hit3
      have huid2 : get_item_uid it2 = some u := by
        rw [similarI_uid hsim]
        exact huid3
      have hleaf2 : it2.childrenOf = [] := by
        apply uid_leaf_after_restore (get_order st.buttons) st.name_label st.uid_label
          st.collection_df _ it2 hit2
        rw [huid2]
        rfl
      have heq : it2 = it3 := similarI_leaf_eq_left hsim hleaf2
      rw [← heq]
      exact checked_after_restore _ _ it2 hit2 u huid2 hne hsc
    by_cases hsel : st.selected_uids.isEmpty = true
    · rw [if_pos hsel] at hit
      rw [descList_mapDataL] at hit
      obtain ⟨it3, hit3, rfl⟩ := List.mem_map.mp hit
      rw [get_item_uid_mapDataI] at huid
      rw [stateOf_mapDataI]
      exact hcore it3 hit3 huid
    · rw [if_neg hsel] at hit
      rw [descList_mapDataL] at hit
      obtain ⟨it4, hit4, rfl⟩ := List.mem_map.mp hit
      rw [descList_mapDataL] at hit4
      obtain ⟨it3, hit3, rfl⟩ := List.mem_map.mp hit4
      rw [get_item_uid_mapDataI, selectIfUidIn_uid, dataOf_mapDataI] at huid
      rw [stateOf_mapDataI, selectIfUidIn_state, dataOf_mapDataI]
      exact hcore it3 hit3 huid
  · intro it hit
    simp only [rearrange_hierarchy] at hit
    by_cases hsel : st.selected_uids.isEmpty = true
    · rw [if_pos hsel] at hit
      rw [descList_mapDataL] at hit
      obtain ⟨it3, hit3, rfl⟩ := List.mem_map.mp hit
      rw [selectedOf_mapDataI]
      constructor
      · intro h
        simp [clearSelect] at h
      · rintro ⟨u, _, _, hmem⟩
        rw [List.isEmpty_iff.mp hsel] at hmem
        exact absurd hmem (List.not_mem_nil u)
    · rw [if_neg hsel] at hit
      rw [descList_mapDataL] at hit
      obtain ⟨it4, hit4, rfl⟩ := List.mem_map.mp hit
      rw [descList_mapDataL] at hit4
      obtain ⟨it3, hit3, rfl⟩ := List.mem_map.mp hit4
      have huideq : get_item_uid (mapDataI (selectIfUidIn st.selected_uids)
          (mapDataI clearSelect it3)) = it3.dataOf.uid := by
        rw [get_item_uid_mapDataI, selectIfUidIn_uid, dataOf_mapDataI]
        rfl
      rw [selectedOf_mapDataI, dataOf_mapDataI, selectIfUidIn_clear_selected_iff]
      constructor
      · rintro ⟨u, hu, hne, hmem⟩
        refine ⟨u, ?_, hne, hmem⟩
        rw [huideq]
        exact hu
      · rintro ⟨u, hu, hne, hmem⟩
        rw [huideq] at hu
        exact ⟨u, hu, hne, hmem⟩

/-- Closed instance of `claim_C4`: one collection row with UID "1", saved as
checked and selected; after the rebuild the row's leaf is `Checked` and
selected again and `selected_uids` is unchanged. -/
theorem claim_C4_witness :
    (rearrange_hierarchy { sampleState [] with
        collection_df := [[("role", "fault"), ("name", "Alpha"), ("uid", "1")]]
        buttons := [⟨"role", true⟩]
        checked_uids := ["1"]
        selected_uids := ["1"] }).selected_uids = ["1"] ∧
    stateOf (Item.node
      { text0 := "", text1 := "Alpha", uid := some "1", checkState := .Checked,
        userCheckable := true, autoTristate := false, selected := true } []) =
      CheckState.Checked ∧
    selectedOf (Item.node
      { text0 := "", text1 := "Alpha", uid := some "1", checkState := .Checked,
        userCheckable := true, autoTristate := false, selected := true } []) = true := by
  have h := claim_C4 { sampleState [] with
    collection_df := [[("role", "fault"), ("name", "Alpha"), ("uid", "1")]]
    buttons := [⟨"role", true⟩]
    checked_uids := ["1"]
    selected_uids := ["1"] }
  refine ⟨h.1, ?_, ?_⟩
  · exact h.2.1 (Item.node
      { text0 := "", text1 := "Alpha", uid := some "1", checkState := .Checked,
        userCheckable := true, autoTristate := false, selected := true } [])
      (by decide) "1" (by decide) (by decide) (Or.inl (by decide))
  · exact (h.2.2 (Item.node
      { text0 := "", text1 := "Alpha", uid := some "1", checkState := .Checked,
        userCheckable := true, autoTristate := false, selected := true } [])
      (by decide)).mpr ⟨"1", by decide, by decide, by decide⟩

/-- `removeByUids` deletes from the pre-order UID listing exactly the given
UIDs, as long as UID-carrying items are childless (as in any populated
forest). -/
theorem uidsOf_removeByUids (uids : List String) :
    ∀ (f : List Item),
    (∀ it ∈ descList f, (get_item_uid it).isSome → it.childrenOf = []) →
    (descList (removeByUids uids f)).filterMap get_item_uid =
      ((descList f).filterMap get_item_uid).filter (fun u => !(uids.contains u))
  | [], _ => by simp [removeByUids, descList]
  | (Item.node d cs) :: rest, hwf => by
    have hwf_cs : ∀ it ∈ descList cs, (get_item_uid it).isSome → it.childrenOf = [] := by
      intro it hit
      apply hwf it
      simp only [descList, descItem, List.mem_cons, List.mem_append]
      exact Or.inr (Or.inl hit)
    have hwf_rest : ∀ it ∈ descList rest, (get_item_uid it).isSome → it.childrenOf = [] := by
      intro it hit
      apply hwf it
      simp only [descList, descItem, List.mem_cons, List.mem_append]
      exact Or.inr (Or.inr hit)
    have ihcs := uidsOf_removeByUids uids cs hwf_cs
    have ihrest := uidsOf_removeByUids uids rest hwf_rest
    by_cases hmatch : (match d.uid with | some u => uids.contains u | none => false) = true
    · have hrm : removeByUids uids (Item.node d cs :: rest) = removeByUids uids rest := by
        simp only [removeByUids]
        rw [if_pos hmatch]
      rw [hrm]
      obtain ⟨u, hdu⟩ : ∃ u, d.uid = some u := by
        cases hdu : d.uid with
        | none => rw [hdu] at hmatch; simp at hmatch
        | some u => exact ⟨u, rfl⟩
      have hcontains : uids.contains u = true := by
        rw [hdu] at hmatch
        exact hmatch
      have hcs : cs = [] := by
        have h1 := hwf (Item.node d cs) (by simp [descList])
          (by simp [get_item_uid, Item.dataOf, hdu])
        simpa [Item.childrenOf] using h1
      subst hcs
      rw [ihrest]
      simp only [descList, descItem, List.filterMap_cons, get_item_uid, Item.dataOf, hdu,
        List.filter_cons, hcontains]
      simp [descList, descItem]
    · have hrm : removeByUids uids (Item.node d cs :: rest) =
          Item.node d (removeByUids uids cs) :: removeByUids uids rest := by
        simp only [removeByUids]
        rw [if_neg hmatch]
      rw [hrm]
      simp only [descList, descItem, List.filterMap_cons, List.filterMap_append,
        List.filter_cons, List.filter_append, ihcs, ihrest]
      cases hdu : d.uid with
      | none =>
        simp [get_item_uid, Item.dataOf, hdu]
      | some u =>
        have hnc : uids.contains u = false := by
          rw [hdu] at hmatch
          exact Bool.eq_false_iff.mpr hmatch
        have hnm : u ∉ uids := by
          intro hmem
          have hc : uids.contains u = true := by simp [hmem]
          rw [hnc] at hc
          cases hc
        simp [get_item_uid, Item.dataOf, hdu, List.filter_cons, hnc]
        rw [if_neg hnm]

/-- C8 (spec-modelled): the widget's incremental operations.
`remove_items_from_tree` deletes from the tree exactly the items whose UID
is in the given list (the surviving pre-order UID listing is the old one
with those UIDs filtered out); `add_items_to_tree` inserts the collection
rows carrying the given UIDs under the current hierarchy while every leaf
already in the tree stays reachable (no complete rebuild); and
`set_selection_from_uids` makes exactly the items carrying one of the given
UIDs selected and records the list in `parent.collection.selected_uids`. -/
theorem claim_C8 (st : WidgetState) (uids : List String)
    (hwf : ∀ it ∈ descList st.forest, (get_item_uid it).isSome → it.childrenOf = []) :
    ((descList (remove_items_from_tree st uids).forest).filterMap get_item_uid =
      ((descList st.forest).filterMap get_item_uid).filter (fun u => !(uids.contains u))) ∧
    (∀ chain leafd, hasLeafAt st.forest chain leafd = true →
      hasLeafAt (add_items_to_tree st uids).forest chain leafd = true) ∧
    (∀ row ∈ st.collection_df, ∀ u, uidOfRow row st.uid_label = some u → u ∈ uids →
      hasLeafAt (add_items_to_tree st uids).forest
        ((get_order st.buttons).map (fun lvl => rowGet row lvl))
        (mkLeafItemData row st.name_label st.uid_label) = true) ∧
    ((set_selection_from_uids st uids).selected_uids = uids) ∧
    (∀ it ∈ descList (set_selection_from_uids st uids).forest,
      selectedOf it = true ↔
        ∃ u, get_item_uid it = some u ∧ u ≠ "" ∧ u ∈ uids) := by
  refine ⟨uidsOf_removeByUids uids st.forest hwf, ?_, ?_, rfl, ?_⟩
  · intro chain leafd h
    exact foldl_insert_pres (get_order st.buttons) st.name_label st.uid_label _
      st.forest chain leafd h
  · intro row hrow u hu hmem
    apply foldl_insert_has (get_order st.buttons) st.name_label st.uid_label _ st.forest row
    apply List.mem_filter.mpr
    refine ⟨hrow, ?_⟩
    rw [hu]
    simpa using hmem
  · intro it hit
    simp only [set_selection_from_uids] at hit
    rw [descList_mapDataL] at hit
    obtain ⟨it4, hit4, rfl⟩ := List.mem_map.mp hit
    rw [descList_mapDataL] at hit4
    obtain ⟨it3, hit3, rfl⟩ := List.mem_map.mp hit4
    have huideq : get_item_uid (mapDataI (selectIfUidIn uids)
        (mapDataI clearSelect it3)) = it3.dataOf.uid := by
      rw [get_item_uid_mapDataI, selectIfUidIn_uid, dataOf_mapDataI]
      rfl
    rw [selectedOf_mapDataI, dataOf_mapDataI, selectIfUidIn_clear_selected_iff]
    constructor
    · rintro ⟨u, hu, hne, hmem⟩
      refine ⟨u, ?_, hne, hmem⟩
      rw [huideq]
      exact hu
    · rintro ⟨u, hu, hne, hmem⟩
      rw [huideq] at hu
      exact ⟨u, hu, hne, hmem⟩

/-- Closed instance of `claim_C8`: removing UID "1" from a two-leaf forest
leaves exactly UID "2"; adding the single collection row with UID "1" to an
empty tree makes its leaf reachable; selection from UIDs selects the
matching leaf. -/
theorem claim_C8_witness :
    ((descList (remove_items_from_tree { sampleState
        [Item.node (sampleItemData (some "1") .Unchecked false "" "Alpha") [],
         Item.node (sampleItemData (some "2") .Unchecked false "" "Beta") []] with
        collection_df := [[("role", "fault"), ("name", "Alpha"), ("uid", "1")]]
        buttons := [⟨"role", true⟩] } ["1"]).forest).filterMap get_item_uid = ["2"]) ∧
    hasLeafAt (add_items_to_tree { sampleState [] with
        collection_df := [[("role", "fault"), ("name", "Alpha"), ("uid", "1")]]
        buttons := [⟨"role", true⟩] } ["1"]).forest
      ["fault"]
      (mkLeafItemData [("role", "fault"), ("name", "Alpha"), ("uid", "1")]
        "name" (some "uid")) = true := by
  have h1 := claim_C8 { sampleState
      [Item.node (sampleItemData (some "1") .Unchecked false "" "Alpha") [],
       Item.node (sampleItemData (some "2") .Unchecked false "" "Beta") []] with
      collection_df := [[("role", "fault"), ("name", "Alpha"), ("uid", "1")]]
      buttons := [⟨"role", true⟩] } ["1"] (by decide)
  have h2 := claim_C8 { sampleState [] with
      collection_df := [[("role", "fault"), ("name", "Alpha"), ("uid", "1")]]
      buttons := [⟨"role", true⟩] } ["1"]
    (by intro it hit; simp [sampleState, descList] at hit)
  constructor
  · rw [h1.1]
    decide
  · have h3 := h2.2.2.1 [("role", "fault"), ("name", "Alpha"), ("uid", "1")]
      (by decide) "1" (by decide) (by decide)
    simpa using h3

end CustomTreeWidget
